import Mathlib

/-!
# Verification of the `epg.py` schedule assembly and validation pipeline

Shallow embedding of the pure core of `src/epg.py` (an XMLTV EPG builder):
time-text normalization (`TIME_RE` plus range checks), channel-id
normalization (`normalize_channel_id`), per-day per-channel schedule
building (`parse_day_program`: draft construction, dedup by start, sort by
start, stop-time inference, append to the global `tv` element tree), the
serialized-document reader used by QC, and the QC continuity walk
(`run_qc`).

Modelling conventions:
* Python `datetime` values constructed by the pipeline are embedded as the
  packed decimal `Nat` `YYYYMMDDHHMMSS` (`Timestamp` below).  For
  `datetime` values whose components are valid, Python's component-wise
  lexicographic comparison coincides with `Nat` order on this packed key,
  and `.date()` corresponds to `key / 1000000`.  A calendar day is likewise
  the packed `Nat` `YYYYMMDD`.
* `str.strip()` / regex `\s` are modelled over the ASCII whitespace
  characters (space, TAB, LF, CR, VT, FF); regex `\d` over the ASCII
  digits.  Python additionally admits some non-ASCII whitespace/digit
  code points; no claim under study depends on those.
* `BeautifulSoup.get_text(strip=True)` on the simple text nodes the
  scraper reads is whitespace-stripping of the node text.
* The XML text layer (`ET.tostring` → `minidom.toprettyxml` → `ET.parse`)
  is treated as the identity on the element tree: `minidom` writes an
  element whose single child is a text node inline, so pretty-printing
  only inserts whitespace between elements and attribute/text payloads
  survive byte-for-byte.  The document is therefore carried as the list of
  children of the root `tv` element (`Elem` below), and the "reader" is
  `run_qc`'s extraction of channels and programmes from that tree.
* The XPath channel lookup of epg.py line 127 builds its predicate by
  f-string interpolation, so an id containing a single quote yields an
  invalid predicate and ElementTree raises SyntaxError.  `tvFindChannel`
  models the lookup with this error path (and `processSectionE`,
  `processDayE`, `runPipelineE` propagate it as Python does);
  `hasChannel` is its success-path restriction, adequate wherever the
  ids in play are quote-free.
-/

/-- ASCII fragment of Python's whitespace class (`\s`, `str.strip`). -/
def pyIsSpace (c : Char) : Bool :=
  c = ' ' || c = '\t' || c = '\n' || c = '\r' || c = '\x0b' || c = '\x0c'

/-- Python `str.strip()` on a character list: drop whitespace at both ends. -/
def pyStripL (l : List Char) : List Char :=
  ((l.dropWhile pyIsSpace).reverse.dropWhile pyIsSpace).reverse

/-- Python `str.strip()`. -/
def pyStrip (s : String) : String :=
  ⟨pyStripL s.data⟩

/-- The decimal digit character for `n % 10`. -/
def digitChar (n : Nat) : Char :=
  match n % 10 with
  | 0 => '0' | 1 => '1' | 2 => '2' | 3 => '3' | 4 => '4'
  | 5 => '5' | 6 => '6' | 7 => '7' | 8 => '8' | _ => '9'

/-- Numeric value of a digit character. -/
def digitVal (c : Char) : Nat := c.toNat - 48

/-- Read a digit string as a number (leading zeros allowed); models
Python `int` on a nonempty digit string. -/
def parseDigits (l : List Char) : Nat :=
  l.foldl (fun a c => a * 10 + digitVal c) 0

-- Basic facts about the decimal rendering.

theorem digitVal_digitChar (n : Nat) : digitVal (digitChar n) = n % 10 := by
  unfold digitChar digitVal
  have h : n % 10 < 10 := Nat.mod_lt _ (by omega)
  interval_cases h : n % 10 <;> simp [h]

theorem digitChar_isDigit (n : Nat) : (digitChar n).isDigit = true := by
  unfold digitChar
  have h10 : n % 10 < 10 := Nat.mod_lt _ (by omega)
  interval_cases h10 : n % 10 <;> simp [h10]

theorem digitChar_eq_of_mod {a b : Nat} (h : a % 10 = b % 10) :
    digitChar a = digitChar b := by
  unfold digitChar
  rw [h]

theorem parseDigits_from (a : Nat) (l : List Char) :
    l.foldl (fun a c => a * 10 + digitVal c) a =
      a * 10 ^ l.length + parseDigits l := by
  induction l generalizing a with
  | nil => simp [parseDigits]
  | cons c cs ih =>
    simp only [List.foldl_cons, parseDigits, List.length_cons]
    rw [ih (a * 10 + digitVal c), ih (0 * 10 + digitVal c)]
    ring

/-- Lemma: `parseDigits` recovers `k` from its `n`-digit zero-padded
decimal rendering. -/
theorem parseDigits_extract :
    ∀ (n k : Nat), k < 10 ^ n →
      parseDigits ((List.range n).map
        (fun i => digitChar (k / 10 ^ (n - 1 - i)))) = k := by
  intro n
  induction n with
  | zero =>
    intro k hk
    interval_cases k
    rfl
  | succ n ih =>
    intro k hk
    rw [List.range_succ_eq_map, List.map_cons, List.map_map]
    have hrest : (List.range n).map ((fun i =>
        digitChar (k / 10 ^ (n + 1 - 1 - i))) ∘ Nat.succ) =
        (List.range n).map
          (fun i => digitChar (k % 10 ^ n / 10 ^ (n - 1 - i))) := by
      apply List.map_congr_left
      intro i hi
      have hi2 : i < n := List.mem_range.mp hi
      show digitChar (k / 10 ^ (n + 1 - 1 - (i + 1))) = _
      have he : n + 1 - 1 - (i + 1) = n - 1 - i := by omega
      rw [he]
      apply digitChar_eq_of_mod
      rw [Nat.div_mod_eq_mod_mul_div, Nat.div_mod_eq_mod_mul_div]
      have hx : (10 : Nat) ^ (n - 1 - i) * 10 = 10 ^ (n - 1 - i + 1) := by
        ring
      rw [hx, Nat.mod_mod_of_dvd k
        (Nat.pow_dvd_pow 10 (by omega : n - 1 - i + 1 ≤ n))]
    rw [hrest]
    have hsplit : parseDigits (digitChar (k / 10 ^ (n + 1 - 1 - 0)) ::
        (List.range n).map
          (fun i => digitChar (k % 10 ^ n / 10 ^ (n - 1 - i)))) =
        digitVal (digitChar (k / 10 ^ (n + 1 - 1 - 0))) * 10 ^ n +
          parseDigits ((List.range n).map
            (fun i => digitChar (k % 10 ^ n / 10 ^ (n - 1 - i)))) := by
      show List.foldl (fun a c => a * 10 + digitVal c) 0 _ = _
      rw [List.foldl_cons, parseDigits_from]
      simp
    rw [hsplit, digitVal_digitChar]
    have h1 : n + 1 - 1 - 0 = n := by omega
    rw [h1]
    have h2 : k / 10 ^ n % 10 = k / 10 ^ n := by
      apply Nat.mod_eq_of_lt
      rw [Nat.div_lt_iff_lt_mul (pow_pos (by omega : (0:ℕ) < 10) n)]
      calc k < 10 ^ (n + 1) := hk
        _ = 10 * 10 ^ n := by ring
    rw [h2, ih (k % 10 ^ n) (Nat.mod_lt _ (pow_pos (by omega) n)),
      Nat.mul_comm]
    exact Nat.div_add_mod k (10 ^ n)

/-! ## Timestamps and their wire format

`Timestamp` is the packed decimal `YYYYMMDDHHMMSS`; a calendar `Day` is
the packed decimal `YYYYMMDD`. -/

abbrev Timestamp := Nat

/-- Model of `datetime.date()` on a packed timestamp: its `YYYYMMDD`
part. -/
def tsDate (t : Timestamp) : Nat := t / 1000000

/-- Model of `fmt_xmltv_time` (epg.py line 69) in the
`INCLUDE_TZ_OFFSET = False`
configuration: `strftime("%Y%m%d%H%M%S")`, i.e. the 14-digit zero-padded
decimal rendering of the packed timestamp (the pipeline's years are
four-digit). -/
def fmt_xmltv_time (k : Timestamp) : String :=
  ⟨(List.range 14).map (fun i => digitChar (k / 10 ^ (13 - i)))⟩

/-- Model of `to_int` (epg.py line 186): `int(s.split()[0])` — first
whitespace-free token read as a decimal number. -/
def to_int (s : String) : Nat :=
  parseDigits (s.data.takeWhile (fun c => !pyIsSpace c))

/-- Leap-year rule used by Python's `datetime`. -/
def isLeap (y : Nat) : Bool :=
  (y % 4 = 0 && !(y % 100 = 0)) || y % 400 = 0

/-- Days in a month, as validated by Python's `datetime` constructor. -/
def daysInMonth (y mo : Nat) : Nat :=
  if mo = 2 then (if isLeap y then 29 else 28)
  else if mo = 4 || mo = 6 || mo = 9 || mo = 11 then 30
  else 31

/-- Component ranges that `datetime.strptime(_, "%Y%m%d%H%M%S")` accepts
(year 1–9999, month 1–12, day within the month, hour ≤ 23, minute ≤ 59,
second ≤ 59), read off the packed key. -/
def validTS (k : Nat) : Bool :=
  let y := k / 10000000000
  let mo := k / 100000000 % 100
  let d := k / 1000000 % 100
  let h := k / 10000 % 100
  let mi := k / 100 % 100
  let s := k % 100
  (1 ≤ y && y ≤ 9999) && (1 ≤ mo && mo ≤ 12) &&
    (1 ≤ d && d ≤ daysInMonth y mo) && h ≤ 23 && mi ≤ 59 && s ≤ 59

/-- Predicate `validTS` plus a four-digit year, the regime in which
`strftime`'s
`%Y` rendering is the zero-padded four digits that `fmt_xmltv_time`
models. -/
def validTS4 (k : Nat) : Bool :=
  validTS k && 1000 ≤ k / 10000000000

/-- Model of `_parse_ts` (epg.py lines 208–212): strip, drop an offset
suffix
after a space, then `strptime("%Y%m%d%H%M%S")` — which on a 14-digit
string splits it 4+2+2+2+2+2 and validates the component ranges.
`none` models the `ValueError` the Python code would raise. -/
def _parse_ts (s : String) : Option Timestamp :=
  let t := (pyStrip s).data
  let t := t.takeWhile (fun c => !pyIsSpace c)
  if t.length = 14 && t.all Char.isDigit && validTS (parseDigits t) then
    some (parseDigits t)
  else none

/-! ## The time-text matcher

`TIME_RE = re.compile(r"^\s*(\d{1,2})\s*:\s*(\d{2})\s*$")` (epg.py
line 51).  The regex is deterministic on every input (the digit groups
are delimited by non-digit context), so it is embedded as a
backtracking-free scanner. -/

/-- Model of `TIME_RE.match` followed by `int` on the two groups:
returns the
(hour, minute) digit values when the text matches
`^\s*(\d{1,2})\s*:\s*(\d{2})\s*$`. -/
def timeReMatch (s : String) : Option (Nat × Nat) :=
  let cs := s.data.dropWhile pyIsSpace
  let hd := cs.takeWhile Char.isDigit
  let r1 := cs.dropWhile Char.isDigit
  if hd.length = 0 || 2 < hd.length then none
  else
    match r1.dropWhile pyIsSpace with
    | c :: r2 =>
      if c = ':' then
        let r3 := r2.dropWhile pyIsSpace
        let md := r3.takeWhile Char.isDigit
        let r4 := r3.dropWhile Char.isDigit
        if md.length = 2 && r4.all pyIsSpace then
          some (parseDigits hd, parseDigits md)
        else none
      else none
    | [] => none

/-- The acceptance test of epg.py lines 152–162: `TIME_RE` match plus
the `hour > 23 or minute > 59` range rejection. -/
def timeNormalize (s : String) : Option (Nat × Nat) :=
  match timeReMatch s with
  | none => none
  | some (h, m) => if 23 < h || 59 < m then none else some (h, m)

/-! ## Data model of the pipeline -/

/-- One bookmarkable listing row of a channel's `tv-box`: the text of its
`div.time` / `div.program` children, `none` when the `div` is missing
(`li.find` returning `None`, epg.py lines 147–150). -/
structure Row where
  timeTag : Option String
  titleTag : Option String
deriving DecidableEq, Repr

/-- The `{"start": ..., "title": ..., "channel_id": ...}` dict built on
epg.py line 169. -/
structure Draft where
  start : String
  title : String
  channel_id : String
deriving DecidableEq, Repr

/-- A child of the root `tv` element: either a `channel` element (with
its `display-name` child text) or a `programme` element (with its
`start`, `stop`, `channel` attributes and `title` child text). -/
inductive Elem where
  | channel (id : String) (displayName : String)
  | programme (start : String) (stop : String) (chan : String) (title : String)
deriving DecidableEq, Repr

/-- One `tv-box` page section as handed over by the external extractor:
the raw channel header text and the bookmarkable rows. -/
structure Section' where
  channelName : String
  rows : List Row
deriving DecidableEq, Repr

/-- Model of `NON_CHANNEL_DISPLAY_NAMES` (epg.py line 42). -/
def NON_CHANNEL_DISPLAY_NAMES : List String :=
  ["Сувгууд", "Суваг", "Channels", "Сувгуудын жагсаалт"]

/-- Helper for `List.dropWhile` termination: dropping never lengthens. -/
theorem dropWhile_length_le (p : Char → Bool) (l : List Char) :
    (l.dropWhile p).length ≤ l.length := by
  induction l with
  | nil => simp
  | cons c cs ih =>
    by_cases h : p c
    · simp only [List.dropWhile_cons, h, if_true]
      exact Nat.le_succ_of_le ih
    · simp [List.dropWhile_cons, h]

/-- Model of the substitution in `normalize_channel_id`: replace every
maximal whitespace run by a
single underscore. -/
def subWs : List Char → List Char
  | [] => []
  | c :: cs =>
    if pyIsSpace c then '_' :: subWs (cs.dropWhile pyIsSpace)
    else c :: subWs cs
  termination_by l => l.length
  decreasing_by
  · exact Nat.lt_succ_of_le (dropWhile_length_le _ _)
  · simp

/-- Model of `normalize_channel_id` (epg.py lines 91–94):
`re.sub(r"\s+", "_", name.strip())`. -/
def normalize_channel_id (name : String) : String :=
  ⟨subWs (pyStripL name.data)⟩

/-! ## parse_day_program (epg.py lines 97–205)

The fetch/HTML layers are external; a day's page is its list of
`Section'`s.  `day` is the packed `YYYYMMDD` of `day_local` (a local
midnight, so `second`/`microsecond` are already zero). -/

/-- Model of the start-of-slot datetime
`day_local.replace(hour=h, minute=m, second=0, microsecond=0)`
(epg.py line 164) as a packed timestamp. -/
def mkStartKey (day h m : Nat) : Timestamp :=
  day * 1000000 + h * 10000 + m * 100

/-- The row loop of epg.py lines 146–169: build the draft list and the
`invalid_times` counter.  Rows missing a `div.time` or `div.program` are
skipped silently; time texts rejected by `TIME_RE` or the range check
bump `invalid_times`; kept rows record the formatted start, the stripped
title, and the channel id. -/
def buildDrafts (day : Nat) (cid : String) : List Row → List Draft × Nat
  | [] => ([], 0)
  | r :: rs =>
    let rest := buildDrafts day cid rs
    match r.timeTag, r.titleTag with
    | some t, some ti =>
      (match timeNormalize (pyStrip t) with
       | none => (rest.1, rest.2 + 1)
       | some (h, m) =>
         ({ start := fmt_xmltv_time (mkStartKey day h m),
            title := pyStrip ti, channel_id := cid } :: rest.1, rest.2))
    | _, _ => rest

/-- The dedup loop of epg.py lines 174–183, with its `seen_starts` set:
drop a draft whose `start` string was already seen, keep the first
occurrence. -/
def dedupGo (seen : List String) : List Draft → List Draft
  | [] => []
  | d :: ds =>
    if d.start ∈ seen then dedupGo seen ds
    else d :: dedupGo (d.start :: seen) ds

/-- Model of the sort `programme_list.sort(...)` by `to_int` key (epg.py
line 188): Python's stable sort by the numeric start key. -/
def sortDrafts (l : List Draft) : List Draft :=
  l.mergeSort (fun a b => to_int a.start ≤ to_int b.start)

/-- The emit loop of epg.py lines 191–205: each programme's `stop` is the
next programme's `start`; the last programme of the day stops at the same
day's 23:59:59. -/
def emitProgs (day : Nat) : List Draft → List Elem
  | [] => []
  | [d] => [.programme d.start (fmt_xmltv_time (day * 1000000 + 235959))
              d.channel_id d.title]
  | d :: d2 :: ds =>
    .programme d.start d2.start d.channel_id d.title :: emitProgs day (d2 :: ds)

/-- Test for an existing channel element: the success path of the find on
(epg.py line 127).  The faithful model of that line, including the
SyntaxError that ElementTree raises when the interpolated id holds a
single-quote character, is `tvFindChannel` below. -/
def hasChannel (doc : List Elem) (cid : String) : Bool :=
  doc.any (fun e => match e with
    | .channel i _ => i = cid
    | _ => false)

/-- The programme block a section contributes: dedup, sort, emit (empty
when the section has no bookmarkable rows, epg.py line 138). -/
def sectionProgElems (day : Nat) (cid : String) (rows : List Row) : List Elem :=
  if rows = [] then []
  else emitProgs day (sortDrafts (dedupGo [] (buildDrafts day cid rows).1))

/-- One iteration of the `for tv_box in tv_boxes` loop (epg.py
lines 117–205): skip empty/blocklisted headers, register the channel
element if its normalized id is new, then append the section's programme
elements. -/
def processSection (day : Nat) (doc : List Elem) (sec : Section') : List Elem :=
  let name := pyStrip sec.channelName
  if name = "" || name ∈ NON_CHANNEL_DISPLAY_NAMES then doc
  else
    let cid := normalize_channel_id name
    let doc1 := if hasChannel doc cid then doc else doc ++ [.channel cid name]
    doc1 ++ sectionProgElems day cid sec.rows

/-- Model of `parse_day_program` for one fetched day: fold the page's
sections
into the document. -/
def processDay (doc : List Elem) (d : Nat × List Section') : List Elem :=
  d.2.foldl (processSection d.1) doc

/-- The fetch loop of `main` (epg.py lines 275–278): process the days in
order, growing the `tv` tree from empty. -/
def runPipeline (days : List (Nat × List Section')) : List Elem :=
  days.foldl processDay []

/-- The single-quote character, written by code point. -/
def squote : Char := Char.ofNat 39

/-- Whether an id can be interpolated into the XPath predicate
`[@id=...]` built by the f-string on epg.py line 127: an id containing a
single quote terminates the quoted literal early and the resulting
predicate is syntactically invalid. -/
def xpathPredicateOk (cid : String) : Bool :=
  ! cid.data.contains squote

/-- Faithful model of the find on epg.py line 127
`tv.find(f"./channel[@id=...]")`:
when the interpolated id contains a single quote the XPath predicate is
invalid and ElementTree raises `SyntaxError: invalid predicate`;
otherwise the find reports whether a channel element with that id
exists. -/
def tvFindChannel (doc : List Elem) (cid : String) : Except String Bool :=
  if xpathPredicateOk cid then .ok (hasChannel doc cid)
  else .error "invalid predicate"

/-- One iteration of the section loop with the find's error path kept:
the SyntaxError from line 127 is uncaught, so it propagates out of
`parse_day_program`. -/
def processSectionE (day : Nat) (doc : List Elem) (sec : Section') :
    Except String (List Elem) :=
  let name := pyStrip sec.channelName
  if name = "" || name ∈ NON_CHANNEL_DISPLAY_NAMES then .ok doc
  else
    let cid := normalize_channel_id name
    match tvFindChannel doc cid with
    | .error e => .error e
    | .ok present =>
      let doc1 := if present then doc else doc ++ [.channel cid name]
      .ok (doc1 ++ sectionProgElems day cid sec.rows)

/-- Model of `parse_day_program` with the error path: the exception
escapes the section loop. -/
def processDayE (doc : List Elem) (d : Nat × List Section') :
    Except String (List Elem) :=
  d.2.foldlM (processSectionE d.1) doc

/-- The fetch loop of `main` with the error path: an uncaught
SyntaxError aborts the whole run before any output is written. -/
def runPipelineE (days : List (Nat × List Section')) :
    Except String (List Elem) :=
  days.foldlM processDayE []

/-! ## run_qc (epg.py lines 214–271) -/

/-- A programme as `run_qc` holds it after parsing: packed start/stop
timestamps and the title text. -/
structure QCProg where
  start : Timestamp
  stop : Timestamp
  title : String
deriving DecidableEq, Repr

/-- The per-channel walk of epg.py lines 238–258, carrying the
`last_stop` / `last_day` state; returns
`(overlaps, gaps, invalid)`. -/
def qcWalk (lastStop : Option Timestamp) (lastDay : Option Nat) :
    List QCProg → Nat × Nat × Nat
  | [] => (0, 0, 0)
  | p :: ps =>
    let inv : Nat := if p.stop < p.start then 1 else 0
    let day := tsDate p.start
    let lastStop' := if lastDay ≠ none && some day ≠ lastDay then none
                     else lastStop
    let contrib : Nat × Nat :=
      match lastStop' with
      | some ls => (if p.start < ls then 1 else 0, if ls < p.start then 1 else 0)
      | none => (0, 0)
    let rest := qcWalk (some p.stop) (some day) ps
    (contrib.1 + rest.1, contrib.2 + rest.2.1, inv + rest.2.2)

/-- Model of the QC per-channel sort by start (epg.py line 237). -/
def sortQC (l : List QCProg) : List QCProg :=
  l.mergeSort (fun a b => a.start ≤ b.start)

/-- The whole per-channel QC check: sort by start, then walk with fresh
`last_stop` / `last_day` state. -/
def qcChannel (l : List QCProg) : Nat × Nat × Nat :=
  qcWalk none none (sortQC l)

/-! ## The reader run_qc applies to the serialized document
(epg.py lines 219–232). -/

/-- The `channel` projection of the document, in document order. -/
def channelsOf (doc : List Elem) : List (String × String) :=
  doc.filterMap (fun e => match e with
    | .channel i dn => some (i, dn)
    | _ => none)

/-- The `programme` projection of the document restricted to one channel
id, in document order, as raw `(start, stop, title)` strings. -/
def progsOf (doc : List Elem) (c : String) : List (String × String × String) :=
  doc.filterMap (fun e => match e with
    | .programme s st ch t => if ch = c then some (s, st, t) else none
    | _ => none)

/-- The numeric start keys of one channel's programmes, in document
order. -/
def progKeysOf (doc : List Elem) (c : String) : List Nat :=
  (progsOf doc c).map (fun x => to_int x.1)

/-- The `channels` dict of epg.py lines 219–223
(`channels[ch_id] = dn`, so a later assignment to the same id wins),
read back as a lookup function. -/
def readerChannelLookup (doc : List Elem) (i : String) : Option String :=
  (channelsOf doc).foldl
    (fun acc p => if p.1 = i then some p.2 else acc) none

/-- The `prog_map` entry for channel `c` built on epg.py lines 226–232:
programmes with that `channel` attribute in document order, start/stop
run through `_parse_ts`, `findtext("title") or ""` kept as the title. -/
def readerProgs (doc : List Elem) (c : String) :
    List (Option Timestamp × Option Timestamp × String) :=
  doc.filterMap (fun e => match e with
    | .programme s st ch t =>
        if ch = c then some (_parse_ts s, _parse_ts st, t) else none
    | _ => none)

/-! ## Spec-side definitions

These follow the specification's words (not the source) and exist only to
be compared with the source-derived definitions above. -/

/-- Spec side, §4.1: the text "matches pattern `H:MM` or `HH:MM`
(optional **surrounding** whitespace); hour must be 0–23, minute 0–59".
After stripping the surrounding whitespace the text must be exactly one
or two digits, a colon, and exactly two digits. -/
def specTimeStrict (s : String) : Option (Nat × Nat) :=
  let t := pyStripL s.data
  let hd := t.takeWhile Char.isDigit
  match t.dropWhile Char.isDigit with
  | ':' :: r =>
    if (hd.length = 1 || hd.length = 2) && r.length = 2 && r.all Char.isDigit
    then
      let h := parseDigits hd
      let m := parseDigits r
      if h ≤ 23 && m ≤ 59 then some (h, m) else none
    else none
  | _ => none

/-- Declarative reading of the pattern the code actually accepts: digits,
a colon, and whitespace that may also surround the colon. -/
def RelaxedTime (s : String) (h m : Nat) : Prop :=
  ∃ w1 hd w2 w3 md w4 : List Char,
    s.data = w1 ++ hd ++ w2 ++ ':' :: (w3 ++ md ++ w4) ∧
    (∀ c ∈ w1, pyIsSpace c) ∧ (∀ c ∈ w2, pyIsSpace c) ∧
    (∀ c ∈ w3, pyIsSpace c) ∧ (∀ c ∈ w4, pyIsSpace c) ∧
    (∀ c ∈ hd, c.isDigit = true) ∧ (∀ c ∈ md, c.isDigit = true) ∧
    (hd.length = 1 ∨ hd.length = 2) ∧ md.length = 2 ∧
    h = parseDigits hd ∧ m = parseDigits md ∧ h ≤ 23 ∧ m ≤ 59

/-- Spec side, §4.4: "remove entries whose `startLocal` duplicates an
earlier entry in the same list, keeping the first occurrence and
discarding later ones". -/
def specDedup : List Draft → List Draft
  | [] => []
  | d :: ds => d :: specDedup (ds.filter (fun e => !(e.start = d.start)))
  termination_by l => l.length
  decreasing_by
    exact Nat.lt_succ_of_le (List.length_filter_le _ _)

/-- Python `str.split()`: the maximal whitespace-free words, in order. -/
def pyWords : List Char → List (List Char)
  | [] => []
  | c :: cs =>
    if pyIsSpace c then pyWords cs
    else (c :: cs.takeWhile (fun x => !pyIsSpace x)) ::
      pyWords (cs.dropWhile (fun x => !pyIsSpace x))
  termination_by l => l.length
  decreasing_by
  · simp
  · exact Nat.lt_succ_of_le (dropWhile_length_le _ _)

/-- Join of the words with single underscores. -/
def joinUnderscore : List (List Char) → List Char
  | [] => []
  | [w] => w
  | w :: w2 :: ws => w ++ '_' :: joinUnderscore (w2 :: ws)

/-- Spec side, §4.2: trim, then collapse every whitespace run to one
underscore — equivalently, join the whitespace-separated words with
single underscores. -/
def specChannelId (name : String) : String :=
  ⟨joinUnderscore (pyWords name.data)⟩

/-- Spec side, §4.7: an entry is invalid iff its `stop` is strictly
before its `start`. -/
def specInvalidCount (l : List QCProg) : Nat :=
  (l.filter (fun p => p.stop < p.start)).length

/-- The consecutive pairs of a list. -/
def adjPairs (l : List QCProg) : List (QCProg × QCProg) :=
  l.zip l.tail

/-- Spec side, §4.7: an entry overlaps iff it starts on the same calendar
day as the previous entry and strictly before the previous entry's stop. -/
def specOverlapCount (l : List QCProg) : Nat :=
  ((adjPairs l).filter
    (fun ab => tsDate ab.2.start = tsDate ab.1.start && ab.2.start < ab.1.stop)).length

/-- Spec side, §4.7: an entry is a gap iff it starts on the same calendar
day as the previous entry and strictly after the previous entry's stop. -/
def specGapCount (l : List QCProg) : Nat :=
  ((adjPairs l).filter
    (fun ab => tsDate ab.2.start = tsDate ab.1.start && ab.1.stop < ab.2.start)).length

/-! ## Shared helper lemmas -/

theorem isDigit_false_of_pyIsSpace {c : Char} (h : pyIsSpace c = true) :
    c.isDigit = false := by
  simp only [pyIsSpace, Bool.or_eq_true, decide_eq_true_eq, or_assoc] at h
  rcases h with rfl | rfl | rfl | rfl | rfl | rfl <;> decide

theorem pyIsSpace_false_of_isDigit {c : Char} (h : c.isDigit = true) :
    pyIsSpace c = false := by
  cases hs : pyIsSpace c
  · rfl
  · rw [isDigit_false_of_pyIsSpace hs] at h
    cases h

theorem takeWhile_eq_self_of_all {p : Char → Bool} {l : List Char}
    (h : ∀ c ∈ l, p c = true) : l.takeWhile p = l := by
  induction l with
  | nil => rfl
  | cons c cs ih =>
    rw [List.takeWhile_cons, h c (by simp), ih (fun x hx => h x (by simp [hx]))]
    simp

theorem dropWhile_eq_self_of_none {p : Char → Bool} {l : List Char}
    (h : ∀ c ∈ l, p c = false) : l.dropWhile p = l := by
  cases l with
  | nil => rfl
  | cons c cs =>
    rw [List.dropWhile_cons, h c (by simp)]
    simp

theorem takeWhile_append_all {p : Char → Bool} {l1 l2 : List Char}
    (h : ∀ c ∈ l1, p c = true) :
    (l1 ++ l2).takeWhile p = l1 ++ l2.takeWhile p := by
  induction l1 with
  | nil => rfl
  | cons c cs ih =>
    rw [List.cons_append, List.takeWhile_cons, h c (by simp),
      ih (fun x hx => h x (by simp [hx]))]
    rfl

theorem dropWhile_append_all {p : Char → Bool} {l1 l2 : List Char}
    (h : ∀ c ∈ l1, p c = true) :
    (l1 ++ l2).dropWhile p = l2.dropWhile p := by
  induction l1 with
  | nil => rfl
  | cons c cs ih =>
    rw [List.cons_append, List.dropWhile_cons, h c (by simp)]
    exact ih (fun x hx => h x (by simp [hx]))

theorem parseDigits_replicate_zero (n : Nat) (l : List Char) :
    parseDigits (List.replicate n '0' ++ l) = parseDigits l := by
  induction n with
  | zero => rfl
  | succ n ih =>
    simpa [List.replicate_succ, parseDigits, digitVal] using ih

theorem fmt_all_digit (k : Nat) :
    ∀ c ∈ (fmt_xmltv_time k).data, c.isDigit = true := by
  intro c hc
  unfold fmt_xmltv_time at hc
  simp only [List.mem_map, List.mem_range] at hc
  obtain ⟨i, _, rfl⟩ := hc
  exact digitChar_isDigit _

/-- Lemma: `parseDigits` recovers the packed key from the wire
rendering's
characters. -/
theorem parseDigits_fmt (k : Nat) (h : k < 10 ^ 14) :
    parseDigits (fmt_xmltv_time k).data = k := by
  have hmap : (List.range 14).map (fun i => digitChar (k / 10 ^ (13 - i))) =
      (List.range 14).map (fun i => digitChar (k / 10 ^ (14 - 1 - i))) := by
    apply List.map_congr_left
    intro i _
    have he : (13 : Nat) - i = 14 - 1 - i := by omega
    rw [he]
  show parseDigits ((List.range 14).map
    (fun i => digitChar (k / 10 ^ (13 - i)))) = k
  rw [hmap]
  exact parseDigits_extract 14 k h

/-- Lemma: `to_int` recovers the packed key from its wire rendering. -/
theorem to_int_fmt (k : Nat) (h : k < 10 ^ 14) :
    to_int (fmt_xmltv_time k) = k := by
  unfold to_int
  rw [takeWhile_eq_self_of_all (fun c hc => by
    rw [pyIsSpace_false_of_isDigit (fmt_all_digit k c hc)]
    rfl)]
  exact parseDigits_fmt k h

theorem fmt_injective {a b : Nat} (ha : a < 10 ^ 14) (hb : b < 10 ^ 14)
    (h : fmt_xmltv_time a = fmt_xmltv_time b) : a = b := by
  have := congrArg to_int h
  rwa [to_int_fmt a ha, to_int_fmt b hb] at this

theorem validTS_lt (k : Nat) (h : validTS k = true) : k < 10 ^ 14 := by
  unfold validTS at h
  simp only [Bool.and_eq_true, decide_eq_true_eq] at h
  have hy : k / 10000000000 ≤ 9999 := h.1.1.1.1.1.2
  have : k / 10000000000 < 10000 := by omega
  rw [Nat.div_lt_iff_lt_mul (by norm_num)] at this
  calc k < 10000 * 10000000000 := this
    _ = 10 ^ 14 := by norm_num

theorem fmt_length (k : Nat) : (fmt_xmltv_time k).data.length = 14 := by
  unfold fmt_xmltv_time
  simp

/-- Lemma: the reader's `_parse_ts` inverts `fmt_xmltv_time` on every
timestamp whose
components `strptime`/`datetime` accept. -/
theorem _parse_ts_fmt (k : Nat) (h : validTS k = true) :
    _parse_ts (fmt_xmltv_time k) = some k := by
  have hns : ∀ c ∈ (fmt_xmltv_time k).data, pyIsSpace c = false :=
    fun c hc => pyIsSpace_false_of_isDigit (fmt_all_digit k c hc)
  have hstrip : pyStrip (fmt_xmltv_time k) = fmt_xmltv_time k := by
    unfold pyStrip pyStripL
    rw [dropWhile_eq_self_of_none hns,
      dropWhile_eq_self_of_none (fun c hc =>
        hns c (List.mem_reverse.mp hc)),
      List.reverse_reverse]
  have htake : ((fmt_xmltv_time k).data).takeWhile (fun c => !pyIsSpace c) =
      (fmt_xmltv_time k).data :=
    takeWhile_eq_self_of_all (fun c hc => by rw [hns c hc]; rfl)
  have hdig : (fmt_xmltv_time k).data.all Char.isDigit = true :=
    List.all_eq_true.mpr (fun c hc => fmt_all_digit k c hc)
  have hparse : parseDigits (fmt_xmltv_time k).data = k :=
    parseDigits_fmt k (validTS_lt k h)
  have hlen := fmt_length k
  simp [_parse_ts, hstrip, htake, hdig, hparse, hlen, h]

/-- Lemma: the calendar day of a start constructed from a day and an
in-range
(hour, minute). -/
theorem tsDate_mkStartKey (day h m : Nat) (hh : h ≤ 23) (hm : m ≤ 59) :
    tsDate (mkStartKey day h m) = day := by
  unfold tsDate mkStartKey
  have hr : h * 10000 + m * 100 < 1000000 := by omega
  rw [Nat.mul_comm day 1000000, Nat.add_assoc,
    Nat.mul_add_div (by norm_num)]
  rw [Nat.div_eq_of_lt hr]
  omega

theorem mkStartKey_lt (day h m : Nat) (hh : h ≤ 23) (hm : m ≤ 59) :
    mkStartKey day h m < (day + 1) * 1000000 := by
  show day * 1000000 + h * 10000 + m * 100 < (day + 1) * 1000000
  omega

theorem mkStartKey_ge (day h m : Nat) : day * 1000000 ≤ mkStartKey day h m := by
  unfold mkStartKey
  omega

/-! ## C1: stop-time inference -/

/-- The `start` attribute of an element (empty for channel elements). -/
def elemStart : Elem → String
  | .channel _ _ => ""
  | .programme s _ _ _ => s

/-- The `stop` attribute of an element (empty for channel elements). -/
def elemStop : Elem → String
  | .channel _ _ => ""
  | .programme _ st _ _ => st

theorem emitProgs_length (day : Nat) :
    ∀ l : List Draft, (emitProgs day l).length = l.length
  | [] => rfl
  | [_] => rfl
  | d :: d2 :: ds => by
    simp only [emitProgs, List.length_cons]
    rw [emitProgs_length day (d2 :: ds)]
    simp

theorem emitProgs_starts (day : Nat) :
    ∀ l : List Draft, (emitProgs day l).map elemStart = l.map Draft.start
  | [] => rfl
  | [_] => rfl
  | d :: d2 :: ds => by
    simp only [emitProgs, List.map_cons]
    rw [show (emitProgs day (d2 :: ds)).map elemStart =
      ((d2 :: ds).map Draft.start) from emitProgs_starts day (d2 :: ds)]
    rfl

theorem emitProgs_stop_mid (day : Nat) :
    ∀ (l : List Draft) (i : Nat) (h : i + 1 < l.length)
      (hb : i < (emitProgs day l).length),
      elemStop ((emitProgs day l).get ⟨i, hb⟩) = (l.get ⟨i + 1, h⟩).start
  | d :: d2 :: ds, 0, _, _ => rfl
  | d :: d2 :: ds, i + 1, h, hb => by
    have hb2 : i < (emitProgs day (d2 :: ds)).length := by
      rw [emitProgs_length]
      simp only [List.length_cons] at h ⊢
      omega
    have := emitProgs_stop_mid day (d2 :: ds) i
      (show i + 1 < (d2 :: ds).length by
        simp only [List.length_cons] at h ⊢
        omega) hb2
    simpa [emitProgs] using this

theorem emitProgs_stop_last (day : Nat) :
    ∀ (l : List Draft) (hb : l.length - 1 < (emitProgs day l).length),
      elemStop ((emitProgs day l).get ⟨l.length - 1, hb⟩) =
        fmt_xmltv_time (day * 1000000 + 235959)
  | [d], _ => rfl
  | d :: d2 :: ds, hb => by
    have hb2 : (d2 :: ds).length - 1 < (emitProgs day (d2 :: ds)).length := by
      rw [emitProgs_length]
      simp
    have := emitProgs_stop_last day (d2 :: ds) hb2
    simpa [emitProgs] using this

/-- C1: For a sorted per-channel-per-day programme list of length `n`,
every entry at index `i < n-1` gets `stop[i] = start[i+1]` (no entry is
rejected at this stage — the emitted list keeps all `n` entries and their
start times, so zero-duration slots pass through), and the last entry of
the day gets `stop` equal to the same calendar day at 23:59:59. -/
theorem C1_stop_time_inference (day : Nat) (l : List Draft) :
    (emitProgs day l).length = l.length ∧
    (emitProgs day l).map elemStart = l.map Draft.start ∧
    (∀ i (h : i + 1 < l.length),
      elemStop ((emitProgs day l).get
        ⟨i, by rw [emitProgs_length]; omega⟩) = (l.get ⟨i + 1, h⟩).start) ∧
    (∀ _ : 0 < l.length,
      elemStop ((emitProgs day l).get
        ⟨l.length - 1, by rw [emitProgs_length]; omega⟩) =
        fmt_xmltv_time (day * 1000000 + 235959)) := by
  refine ⟨emitProgs_length day l, emitProgs_starts day l, ?_, ?_⟩
  · intro i h
    exact emitProgs_stop_mid day l i h _
  · intro h0
    exact emitProgs_stop_last day l _

/-- Witness for C1 at a concrete two-entry day. -/
theorem C1_stop_time_inference_witness :
    elemStop ((emitProgs 20240101
        [⟨"20240101090000", "News", "c"⟩, ⟨"20240101103000", "Movie", "c"⟩]).get
      ⟨0, by decide⟩) = "20240101103000" ∧
    elemStop ((emitProgs 20240101
        [⟨"20240101090000", "News", "c"⟩, ⟨"20240101103000", "Movie", "c"⟩]).get
      ⟨1, by decide⟩) = fmt_xmltv_time 20240101235959 := by
  have h := C1_stop_time_inference 20240101
    [⟨"20240101090000", "News", "c"⟩, ⟨"20240101103000", "Movie", "c"⟩]
  refine ⟨?_, ?_⟩
  · exact h.2.2.1 0 (by decide)
  · have := h.2.2.2 (by decide)
    simpa using this

/-! ## C2: deduplicate then sort -/

theorem dedupGo_spec (l : List Draft) :
    ∀ seen : List String,
      dedupGo seen l = specDedup (l.filter (fun d => decide (d.start ∉ seen))) := by
  induction l with
  | nil => intro seen; simp [dedupGo, specDedup]
  | cons d ds ih =>
    intro seen
    by_cases hmem : d.start ∈ seen
    · have hd : (fun e : Draft => decide (e.start ∉ seen)) d = false := by
        simp [hmem]
      simp only [dedupGo, hmem, if_true, List.filter_cons, hd,
        Bool.false_eq_true, if_false]
      exact ih seen
    · have hd : (fun e : Draft => decide (e.start ∉ seen)) d = true := by
        simp [hmem]
      simp only [dedupGo, hmem, if_false, List.filter_cons, hd, if_true,
        not_false_eq_true, decide_True]
      have hsd : specDedup (d :: List.filter (fun e => decide (e.start ∉ seen)) ds) =
          d :: specDedup ((List.filter (fun e => decide (e.start ∉ seen)) ds).filter
            (fun e => !(e.start = d.start))) := by
        simp only [specDedup]
      rw [hsd]
      congr 1
      rw [List.filter_filter]
      rw [ih (d.start :: seen)]
      congr 1
      apply List.filter_congr
      intro e _
      by_cases h1 : e.start = d.start <;> by_cases h2 : e.start ∈ seen <;>
        simp [h1, h2]

theorem dedupGo_subset (l : List Draft) :
    ∀ seen, ∀ d ∈ dedupGo seen l, d ∈ l := by
  induction l with
  | nil => intro seen d h; cases h
  | cons e es ih =>
    intro seen d h
    unfold dedupGo at h
    by_cases hmem : e.start ∈ seen
    · simp only [hmem, if_true] at h
      exact List.mem_cons_of_mem _ (ih seen d h)
    · simp only [hmem, if_false] at h
      rcases List.mem_cons.mp h with rfl | h
      · exact List.mem_cons_self _ _
      · exact List.mem_cons_of_mem _ (ih _ d h)

theorem dedupGo_distinct (l : List Draft) :
    ∀ seen,
      (dedupGo seen l).Pairwise (fun a b => a.start ≠ b.start) ∧
      (∀ d ∈ dedupGo seen l, d.start ∉ seen) := by
  induction l with
  | nil => intro seen; exact ⟨List.Pairwise.nil, by intro d h; cases h⟩
  | cons e es ih =>
    intro seen
    unfold dedupGo
    by_cases hmem : e.start ∈ seen
    · simpa [hmem] using ih seen
    · simp only [hmem, if_false]
      obtain ⟨hpw, hnotin⟩ := ih (e.start :: seen)
      refine ⟨List.Pairwise.cons ?_ hpw, ?_⟩
      · intro b hb
        have := hnotin b hb
        simp at this
        exact fun hc => this.1 hc.symm
      · intro d hd
        rcases List.mem_cons.mp hd with rfl | hd
        · exact hmem
        · have := hnotin d hd
          simp at this
          exact this.2

/-- C2: Per channel-day draft list (whose starts are wire-formatted
timestamps), the pipeline first removes every entry whose start
duplicates an earlier entry (keeping exactly the first occurrence:
`dedupGo [] = specDedup`), then sorts the survivors by start; the result
is a permutation of the deduplicated list, has pairwise-distinct start
strings, and is strictly ascending by numeric start. -/
theorem C2_dedup_then_sort (l : List Draft)
    (hfmt : ∀ d ∈ l, ∃ k, k < 10 ^ 14 ∧ d.start = fmt_xmltv_time k) :
    dedupGo [] l = specDedup l ∧
    (sortDrafts (dedupGo [] l)).Perm (specDedup l) ∧
    (sortDrafts (dedupGo [] l)).Pairwise
      (fun a b => to_int a.start < to_int b.start) ∧
    (sortDrafts (dedupGo [] l)).Pairwise (fun a b => a.start ≠ b.start) := by
  have hspec : dedupGo [] l = specDedup l := by
    rw [dedupGo_spec l []]
    congr 1
    apply (List.filter_eq_self).mpr
    intro a _
    simp
  have hperm : (sortDrafts (dedupGo [] l)).Perm (dedupGo [] l) :=
    List.mergeSort_perm _ _
  have hne0 : (dedupGo [] l).Pairwise (fun a b => a.start ≠ b.start) :=
    (dedupGo_distinct l []).1
  have hne : (sortDrafts (dedupGo [] l)).Pairwise
      (fun a b => a.start ≠ b.start) := by
    exact (hperm.pairwise_iff (fun hab => Ne.symm hab)).mpr hne0
  have hsorted : (sortDrafts (dedupGo [] l)).Pairwise
      (fun a b => to_int a.start ≤ to_int b.start) := by
    have := @List.sorted_mergeSort Draft
      (fun a b : Draft => decide (to_int a.start ≤ to_int b.start))
      (by intro a b c hab hbc
          simp only [decide_eq_true_eq] at hab hbc ⊢
          omega)
      (by intro a b
          simp only [Bool.or_eq_true, decide_eq_true_eq]
          omega)
      (dedupGo [] l)
    exact this.imp (by intro a b h; simpa using h)
  have hmemfmt : ∀ d ∈ sortDrafts (dedupGo [] l), ∃ k, k < 10 ^ 14 ∧
      d.start = fmt_xmltv_time k := by
    intro d hd
    exact hfmt d (dedupGo_subset l [] d (hperm.mem_iff.mp hd))
  have hstrict : (sortDrafts (dedupGo [] l)).Pairwise
      (fun a b => to_int a.start < to_int b.start) := by
    refine List.Pairwise.imp_of_mem ?_ (hsorted.and hne)
    intro a b ha hb hab
    obtain ⟨ka, hkalt, hka⟩ := hmemfmt a ha
    obtain ⟨kb, hkblt, hkb⟩ := hmemfmt b hb
    rcases Nat.lt_or_ge (to_int a.start) (to_int b.start) with h | h
    · exact h
    · exfalso
      apply hab.2
      have : to_int a.start = to_int b.start := by omega
      rw [hka, hkb, to_int_fmt ka hkalt, to_int_fmt kb hkblt] at this
      rw [hka, hkb, this]
  exact ⟨hspec, hspec ▸ hperm, hstrict, hne⟩

/-- Witness for C2 on the spec's worked example (09:00 twice, then
10:30). -/
theorem C2_dedup_then_sort_witness :
    dedupGo [] [⟨fmt_xmltv_time 20240101090000, "News", "c"⟩,
        ⟨fmt_xmltv_time 20240101090000, "News Repeat", "c"⟩,
        ⟨fmt_xmltv_time 20240101103000, "Movie", "c"⟩] =
      specDedup [⟨fmt_xmltv_time 20240101090000, "News", "c"⟩,
        ⟨fmt_xmltv_time 20240101090000, "News Repeat", "c"⟩,
        ⟨fmt_xmltv_time 20240101103000, "Movie", "c"⟩] ∧
    (sortDrafts (dedupGo [] [⟨fmt_xmltv_time 20240101090000, "News", "c"⟩,
        ⟨fmt_xmltv_time 20240101090000, "News Repeat", "c"⟩,
        ⟨fmt_xmltv_time 20240101103000, "Movie", "c"⟩])).Pairwise
      (fun a b => to_int a.start < to_int b.start) :=
  ⟨(C2_dedup_then_sort _ (by
      intro d hd
      simp at hd
      rcases hd with rfl | rfl | rfl
      · exact ⟨20240101090000, by norm_num, rfl⟩
      · exact ⟨20240101090000, by norm_num, rfl⟩
      · exact ⟨20240101103000, by norm_num, rfl⟩)).1,
   (C2_dedup_then_sort _ (by
      intro d hd
      simp at hd
      rcases hd with rfl | rfl | rfl
      · exact ⟨20240101090000, by norm_num, rfl⟩
      · exact ⟨20240101090000, by norm_num, rfl⟩
      · exact ⟨20240101103000, by norm_num, rfl⟩)).2.2.1⟩

/-! ## C3: QC classification -/

theorem adjPairs_cons2 (a b : QCProg) (l : List QCProg) :
    adjPairs (a :: b :: l) = (a, b) :: adjPairs (b :: l) := by
  simp [adjPairs]

theorem specOverlapCount_cons2 (a b : QCProg) (l : List QCProg) :
    specOverlapCount (a :: b :: l) =
      (if tsDate b.start = tsDate a.start ∧ b.start < a.stop then 1 else 0) +
        specOverlapCount (b :: l) := by
  unfold specOverlapCount
  rw [adjPairs_cons2, List.filter_cons]
  by_cases h : tsDate b.start = tsDate a.start ∧ b.start < a.stop
  · simp [h]
    omega
  · simp only [decide_eq_true_eq]
    rw [if_neg (by simpa using h), if_neg h]
    simp

theorem specGapCount_cons2 (a b : QCProg) (l : List QCProg) :
    specGapCount (a :: b :: l) =
      (if tsDate b.start = tsDate a.start ∧ a.stop < b.start then 1 else 0) +
        specGapCount (b :: l) := by
  unfold specGapCount
  rw [adjPairs_cons2, List.filter_cons]
  by_cases h : tsDate b.start = tsDate a.start ∧ a.stop < b.start
  · simp [h]
    omega
  · simp only [decide_eq_true_eq]
    rw [if_neg (by simpa using h), if_neg h]
    simp

theorem specInvalidCount_cons (a : QCProg) (l : List QCProg) :
    specInvalidCount (a :: l) =
      (if a.stop < a.start then 1 else 0) + specInvalidCount l := by
  unfold specInvalidCount
  rw [List.filter_cons]
  by_cases h : a.stop < a.start
  · simp [h]
    omega
  · simp [h]

theorem qcWalk_state (l : List QCProg) :
    ∀ p0 : QCProg,
      qcWalk (some p0.stop) (some (tsDate p0.start)) l =
        (specOverlapCount (p0 :: l), specGapCount (p0 :: l),
          specInvalidCount l) := by
  induction l with
  | nil =>
    intro p0
    simp [qcWalk, specOverlapCount, specGapCount, specInvalidCount, adjPairs]
  | cons p ps ih =>
    intro p0
    rw [specOverlapCount_cons2, specGapCount_cons2, specInvalidCount_cons]
    simp only [qcWalk, ih p]
    by_cases hd : tsDate p.start = tsDate p0.start
    · simp only [hd]
      have hcond : ((some (tsDate p0.start) ≠ none : Bool) &&
          (some (tsDate p0.start) ≠ some (tsDate p0.start) : Bool)) = false := by
        simp
      rw [hcond]
      by_cases h1 : p.start < p0.stop <;> by_cases h2 : p0.stop < p.start <;>
        simp [h1, h2]
    · have hcond : ((some (tsDate p0.start) ≠ none : Bool) &&
          (some (tsDate p.start) ≠ some (tsDate p0.start) : Bool)) = true := by
        simp [hd]
      rw [hcond]
      simp [hd]

theorem qcWalk_none (l : List QCProg) :
    qcWalk none none l =
      (specOverlapCount l, specGapCount l, specInvalidCount l) := by
  cases l with
  | nil => simp [qcWalk, specOverlapCount, specGapCount, specInvalidCount, adjPairs]
  | cons p ps =>
    simp only [qcWalk, qcWalk_state ps p]
    simp [specInvalidCount_cons]

/-- C3: Walking each channel's programmes in ascending start order
(`sortQC`), the QC walk counts an entry as invalid iff `stop < start`
(irrespective of continuity: the invalid count is insensitive to the
order, hence to the sort); counts an adjacent pair as overlap iff the
later entry starts on the same calendar day and strictly before the
previous entry's stop, and as gap iff it starts on the same day and
strictly after the previous stop; equal abutment is neither, and a pair
whose calendar days differ contributes zero to both counts regardless of
the numeric distance. -/
theorem C3_qc_classification (l : List QCProg) :
    qcChannel l =
      (specOverlapCount (sortQC l), specGapCount (sortQC l),
        specInvalidCount (sortQC l)) ∧
    specInvalidCount (sortQC l) = specInvalidCount l ∧
    (sortQC l).Pairwise (fun a b => a.start ≤ b.start) := by
  refine ⟨qcWalk_none (sortQC l), ?_, ?_⟩
  · unfold specInvalidCount
    exact ((List.mergeSort_perm l _).filter _).length_eq
  · have := @List.sorted_mergeSort QCProg
      (fun a b : QCProg => decide (a.start ≤ b.start))
      (by intro a b c hab hbc
          simp at hab hbc ⊢
          exact Nat.le_trans hab hbc)
      (by intro a b
          simp
          exact Nat.le_total _ _)
      l
    exact this.imp (by intro a b h; simpa using h)

/-! ## C6: channel id normalization -/

/-- Right-strip: drop trailing whitespace. -/
def rstripL (l : List Char) : List Char :=
  (l.reverse.dropWhile pyIsSpace).reverse

theorem pyStripL_eq_rstripL (l : List Char) :
    pyStripL l = rstripL (l.dropWhile pyIsSpace) := rfl

theorem dropWhile_eq_nil_of_all {p : Char → Bool} {l : List Char}
    (h : ∀ c ∈ l, p c = true) : l.dropWhile p = [] := by
  induction l with
  | nil => rfl
  | cons c cs ih =>
    rw [List.dropWhile_cons, h c (by simp)]
    exact ih (fun x hx => h x (by simp [hx]))

theorem all_of_dropWhile_eq_nil {p : Char → Bool} {l : List Char}
    (h : l.dropWhile p = []) : ∀ c ∈ l, p c = true := by
  induction l with
  | nil => intro c hc; cases hc
  | cons c cs ih =>
    intro x hx
    rw [List.dropWhile_cons] at h
    by_cases hc : p c
    · rcases List.mem_cons.mp hx with rfl | hx
      · exact hc
      · rw [if_pos hc] at h
        exact ih h x hx
    · rw [if_neg hc] at h
      cases h

theorem dropWhile_append_ne_nil {p : Char → Bool} {l1 : List Char}
    (l2 : List Char) (h : l1.dropWhile p ≠ []) :
    (l1 ++ l2).dropWhile p = l1.dropWhile p ++ l2 := by
  induction l1 with
  | nil => exact absurd rfl h
  | cons c cs ih =>
    rw [List.cons_append, List.dropWhile_cons, List.dropWhile_cons]
    by_cases hc : p c
    · rw [if_pos hc, if_pos hc]
      rw [List.dropWhile_cons, if_pos hc] at h
      exact ih h
    · rw [if_neg hc, if_neg hc, List.cons_append]

theorem dropWhile_head_not {p : Char → Bool} {l : List Char} {c : Char}
    {cs : List Char} (h : l.dropWhile p = c :: cs) : p c = false := by
  induction l with
  | nil => cases h
  | cons d ds ih =>
    rw [List.dropWhile_cons] at h
    by_cases hd : p d
    · rw [if_pos hd] at h
      exact ih h
    · rw [if_neg hd] at h
      cases h
      simpa using hd

theorem takeWhile_mem {p : Char → Bool} {l : List Char} :
    ∀ c ∈ l.takeWhile p, p c = true := by
  induction l with
  | nil => intro c hc; cases hc
  | cons d ds ih =>
    intro c hc
    rw [List.takeWhile_cons] at hc
    by_cases hd : p d
    · rw [if_pos hd] at hc
      rcases List.mem_cons.mp hc with rfl | hc
      · exact hd
      · exact ih c hc
    · rw [if_neg hd] at hc
      cases hc

theorem rstripL_cons_nonspace {c : Char} (cs : List Char)
    (hc : pyIsSpace c = false) : rstripL (c :: cs) = c :: rstripL cs := by
  unfold rstripL
  rw [List.reverse_cons]
  by_cases hd : cs.reverse.dropWhile pyIsSpace = []
  · rw [dropWhile_append_all (all_of_dropWhile_eq_nil hd), hd]
    rw [List.dropWhile_cons, hc]
    simp
  · rw [dropWhile_append_ne_nil [c] hd, List.reverse_append]
    simp

theorem rstripL_all_nonspace {l : List Char}
    (h : ∀ c ∈ l, pyIsSpace c = false) : rstripL l = l := by
  unfold rstripL
  rw [dropWhile_eq_self_of_none (fun c hc => h c (List.mem_reverse.mp hc)),
    List.reverse_reverse]

theorem rstripL_append_space {l1 l2 : List Char}
    (h : ∀ c ∈ l2, pyIsSpace c = true) : rstripL (l1 ++ l2) = rstripL l1 := by
  unfold rstripL
  rw [List.reverse_append,
    dropWhile_append_all (fun c hc => h c (List.mem_reverse.mp hc))]

theorem rstripL_all_of_eq_nil {l : List Char} (h : rstripL l = []) :
    ∀ c ∈ l, pyIsSpace c = true := by
  unfold rstripL at h
  have : l.reverse.dropWhile pyIsSpace = [] := by
    have := congrArg List.reverse h
    simpa using this
  intro c hc
  exact all_of_dropWhile_eq_nil this c (List.mem_reverse.mpr hc)

theorem rstripL_append_of_ne_nil {l2 : List Char} (l1 : List Char)
    (h : rstripL l2 ≠ []) : rstripL (l1 ++ l2) = l1 ++ rstripL l2 := by
  unfold rstripL
  rw [List.reverse_append, dropWhile_append_ne_nil]
  · rw [List.reverse_append, List.reverse_reverse]
  · intro hc
    apply h
    unfold rstripL
    rw [hc]
    rfl

theorem subWs_all_nonspace {l : List Char}
    (h : ∀ c ∈ l, pyIsSpace c = false) : subWs l = l := by
  induction l with
  | nil => simp [subWs]
  | cons c cs ih =>
    have hc := h c (by simp)
    simp only [subWs, hc, Bool.false_eq_true, if_false]
    rw [ih (fun x hx => h x (by simp [hx]))]

theorem subWs_append_nonspace {l1 : List Char} (l2 : List Char)
    (h : ∀ c ∈ l1, pyIsSpace c = false) :
    subWs (l1 ++ l2) = l1 ++ subWs l2 := by
  induction l1 with
  | nil => rfl
  | cons c cs ih =>
    have hc := h c (by simp)
    rw [List.cons_append]
    simp only [subWs, hc, Bool.false_eq_true, if_false]
    rw [ih (fun x hx => h x (by simp [hx]))]
    rfl

theorem subWs_space_run {sp : List Char} (l2 : List Char)
    (hne : sp ≠ []) (hsp : ∀ c ∈ sp, pyIsSpace c = true)
    (hl2 : l2.dropWhile pyIsSpace = l2) :
    subWs (sp ++ l2) = '_' :: subWs l2 := by
  cases sp with
  | nil => exact absurd rfl hne
  | cons s ss =>
    rw [List.cons_append]
    have hs := hsp s (by simp)
    simp only [subWs, hs, if_true]
    rw [dropWhile_append_all (fun x hx => hsp x (by simp [hx])), hl2]

theorem pyWords_cons_space {c : Char} (cs : List Char)
    (hc : pyIsSpace c = true) : pyWords (c :: cs) = pyWords cs := by
  simp only [pyWords, hc, if_true]

theorem pyWords_cons_nonspace {c : Char} (cs : List Char)
    (hc : pyIsSpace c = false) :
    pyWords (c :: cs) =
      (c :: cs.takeWhile (fun x => !pyIsSpace x)) ::
        pyWords (cs.dropWhile (fun x => !pyIsSpace x)) := by
  simp only [pyWords, hc, Bool.false_eq_true, if_false]

theorem pyWords_all_space {l : List Char}
    (h : ∀ c ∈ l, pyIsSpace c = true) : pyWords l = [] := by
  induction l with
  | nil => simp [pyWords]
  | cons c cs ih =>
    rw [pyWords_cons_space cs (h c (by simp))]
    exact ih (fun x hx => h x (by simp [hx]))

theorem pyWords_dropWhile_space (l : List Char) :
    pyWords (l.dropWhile pyIsSpace) = pyWords l := by
  induction l with
  | nil => rfl
  | cons c cs ih =>
    rw [List.dropWhile_cons]
    by_cases hc : pyIsSpace c
    · rw [if_pos hc, pyWords_cons_space cs hc]
      exact ih
    · rw [if_neg hc]

theorem joinUnderscore_cons_of_ne_nil (w : List Char) {X : List (List Char)}
    (h : X ≠ []) :
    joinUnderscore (w :: X) = w ++ '_' :: joinUnderscore X := by
  cases X with
  | nil => exact absurd rfl h
  | cons x xs => rfl

theorem subWs_strip_join : ∀ (n : Nat) (l : List Char), l.length ≤ n →
    subWs (pyStripL l) = joinUnderscore (pyWords l) := by
  intro n
  induction n with
  | zero =>
    intro l hl
    have : l = [] := List.length_eq_zero.mp (Nat.le_zero.mp hl)
    subst this
    simp [pyStripL, subWs, pyWords, joinUnderscore]
  | succ n ih =>
    intro l hl
    cases l with
    | nil => simp [pyStripL, subWs, pyWords, joinUnderscore]
    | cons c cs =>
      have hcs : cs.length ≤ n := by
        simp only [List.length_cons] at hl
        omega
      by_cases hc : pyIsSpace c
      · have h1 : pyStripL (c :: cs) = pyStripL cs := by
          unfold pyStripL
          rw [List.dropWhile_cons, if_pos hc]
        rw [h1, pyWords_cons_space cs hc]
        exact ih cs hcs
      · have hcb : pyIsSpace c = false := by simpa using hc
        have hkey : pyStripL (c :: cs) = c :: rstripL cs := by
          rw [pyStripL_eq_rstripL, List.dropWhile_cons, if_neg hc]
          exact rstripL_cons_nonspace cs hcb
        have hsplit : cs.takeWhile (fun x => !pyIsSpace x) ++
            cs.dropWhile (fun x => !pyIsSpace x) = cs :=
          List.takeWhile_append_dropWhile _ _
        have hwns : ∀ x ∈ cs.takeWhile (fun x => !pyIsSpace x),
            pyIsSpace x = false := by
          intro x hx
          have := takeWhile_mem x hx
          simpa using this
        rw [hkey, pyWords_cons_nonspace cs hcb]
        by_cases hA : ∀ x ∈ cs.dropWhile (fun x => !pyIsSpace x),
            pyIsSpace x = true
        · -- everything after the first word is trailing whitespace
          have hrs : rstripL cs = cs.takeWhile (fun x => !pyIsSpace x) := by
            conv_lhs => rw [← hsplit]
            rw [rstripL_append_space hA, rstripL_all_nonspace hwns]
          rw [hrs, pyWords_all_space hA]
          have : subWs (c :: cs.takeWhile (fun x => !pyIsSpace x)) =
              c :: cs.takeWhile (fun x => !pyIsSpace x) :=
            subWs_all_nonspace (by
              intro x hx
              rcases List.mem_cons.mp hx with rfl | hx
              · exact hcb
              · exact hwns x hx)
          rw [this]
          rfl
        · -- a later word exists
          set rest := cs.dropWhile (fun x => !pyIsSpace x) with hrestdef
          have hm_ne : rest.dropWhile pyIsSpace ≠ [] := by
            intro hnil
            exact hA (all_of_dropWhile_eq_nil hnil)
          obtain ⟨d, ds, hm⟩ : ∃ d ds, rest.dropWhile pyIsSpace = d :: ds := by
            cases hdm : rest.dropWhile pyIsSpace with
            | nil => exact absurd hdm hm_ne
            | cons d ds => exact ⟨d, ds, rfl⟩
          have hd_ns : pyIsSpace d = false := dropWhile_head_not hm
          have hsp_all : ∀ x ∈ rest.takeWhile pyIsSpace, pyIsSpace x = true :=
            fun x hx => takeWhile_mem x hx
          have hrest_split : rest.takeWhile pyIsSpace ++
              rest.dropWhile pyIsSpace = rest :=
            List.takeWhile_append_dropWhile _ _
          have hrest_ne : rest ≠ [] := by
            intro hnil
            apply hA
            intro x hx
            rw [hnil] at hx
            cases hx
          obtain ⟨r, rs, hcons⟩ := List.exists_cons_of_ne_nil hrest_ne
          have h0 : cs.dropWhile (fun x => !pyIsSpace x) = r :: rs := by
            rw [← hrestdef]
            exact hcons
          have hr_sp : pyIsSpace r = true := by
            have := dropWhile_head_not h0
            simpa using this
          have hsp_ne : rest.takeWhile pyIsSpace ≠ [] := by
            rw [hcons, List.takeWhile_cons, if_pos hr_sp]
            simp
          have hrm : rstripL (rest.dropWhile pyIsSpace) = d :: rstripL ds := by
            rw [hm, rstripL_cons_nonspace ds hd_ns]
          have hrm_ne : rstripL (rest.dropWhile pyIsSpace) ≠ [] := by
            rw [hrm]
            simp
          have hr1 : rstripL rest = rest.takeWhile pyIsSpace ++
              rstripL (rest.dropWhile pyIsSpace) := by
            conv_lhs => rw [← hrest_split]
            exact rstripL_append_of_ne_nil _ hrm_ne
          have hr2 : rstripL cs = cs.takeWhile (fun x => !pyIsSpace x) ++
              rstripL rest := by
            conv_lhs => rw [← hsplit]
            apply rstripL_append_of_ne_nil
            rw [hr1]
            intro hx
            apply hsp_ne
            exact List.append_eq_nil.mp hx |>.1
          have hall_cw : ∀ x ∈ c :: cs.takeWhile (fun x => !pyIsSpace x),
              pyIsSpace x = false := by
            intro x hx
            rcases List.mem_cons.mp hx with rfl | hx
            · exact hcb
            · exact hwns x hx
          have hm_keeps : (rstripL (rest.dropWhile pyIsSpace)).dropWhile
              pyIsSpace = rstripL (rest.dropWhile pyIsSpace) := by
            rw [hrm, List.dropWhile_cons, hd_ns]
            simp
          have hLHS : subWs (c :: rstripL cs) =
              (c :: cs.takeWhile (fun x => !pyIsSpace x)) ++
                '_' :: subWs (rstripL (rest.dropWhile pyIsSpace)) := by
            rw [hr2, hr1]
            rw [show c :: (cs.takeWhile (fun x => !pyIsSpace x) ++
                (rest.takeWhile pyIsSpace ++
                  rstripL (rest.dropWhile pyIsSpace))) =
              (c :: cs.takeWhile (fun x => !pyIsSpace x)) ++
                (rest.takeWhile pyIsSpace ++
                  rstripL (rest.dropWhile pyIsSpace)) from rfl]
            rw [subWs_append_nonspace _ hall_cw]
            rw [subWs_space_run _ hsp_ne hsp_all hm_keeps]
          have hpw_ne : pyWords rest ≠ [] := by
            rw [← pyWords_dropWhile_space rest, hm,
              pyWords_cons_nonspace ds hd_ns]
            simp
          have hIH := ih rest (le_trans (dropWhile_length_le _ cs) hcs)
          rw [pyStripL_eq_rstripL] at hIH
          rw [hLHS, joinUnderscore_cons_of_ne_nil _ hpw_ne, hIH]

unseal subWs in
/-- C6: For every raw channel display name, `normalize_channel_id` equals
trimming surrounding whitespace and replacing every maximal whitespace
run by a single underscore — equivalently, joining the whitespace-
separated words with single underscores (`specChannelId`); in particular
"Голын  ам" (double space) normalizes to "Голын_ам". -/
theorem C6_channel_id_normalization :
    (∀ name : String, normalize_channel_id name = specChannelId name) ∧
    normalize_channel_id "Голын  ам" = "Голын_ам" := by
  constructor
  · intro name
    unfold normalize_channel_id specChannelId
    congr 1
    exact subWs_strip_join name.data.length name.data (Nat.le_refl _)
  · decide

/-! ## C4: TimeNormalizer acceptance -/

theorem takeWhile_nil_of_head {p : Char → Bool} {l : List Char}
    (h : l = [] ∨ ∃ c cs, l = c :: cs ∧ p c = false) :
    l.takeWhile p = [] := by
  rcases h with rfl | ⟨c, cs, rfl, hc⟩
  · rfl
  · rw [List.takeWhile_cons, hc]
    rfl

theorem dropWhile_self_of_head {p : Char → Bool} {l : List Char}
    (h : l = [] ∨ ∃ c cs, l = c :: cs ∧ p c = false) :
    l.dropWhile p = l := by
  rcases h with rfl | ⟨c, cs, rfl, hc⟩
  · rfl
  · rw [List.dropWhile_cons, hc]
    rfl

theorem isDigit_not_space_head {md w4 : List Char} {d : Char} {ds : List Char}
    (hmd : md = d :: ds) (hdig : ∀ c ∈ md, c.isDigit = true) :
    pyIsSpace d = false := by
  subst hmd
  exact pyIsSpace_false_of_isDigit (hdig d (by simp))

/-- Running the scanner on an explicitly decomposed relaxed-pattern
input. -/
theorem timeReMatch_build (w1 hd w2 w3 md w4 : List Char)
    (hw1 : ∀ c ∈ w1, pyIsSpace c = true)
    (hw2 : ∀ c ∈ w2, pyIsSpace c = true)
    (hw3 : ∀ c ∈ w3, pyIsSpace c = true)
    (hw4 : ∀ c ∈ w4, pyIsSpace c = true)
    (hhd : ∀ c ∈ hd, c.isDigit = true)
    (hmd : ∀ c ∈ md, c.isDigit = true)
    (hhdlen : hd.length = 1 ∨ hd.length = 2)
    (hmdlen : md.length = 2) :
    timeReMatch ⟨w1 ++ hd ++ w2 ++ ':' :: (w3 ++ md ++ w4)⟩ =
      some (parseDigits hd, parseDigits md) := by
  obtain ⟨hc, hd2, rfl⟩ : ∃ c cs, hd = c :: cs := by
    cases hd with
    | nil => simp at hhdlen
    | cons c cs => exact ⟨c, cs, rfl⟩
  obtain ⟨mc, md2, rfl⟩ : ∃ c cs, md = c :: cs := by
    cases md with
    | nil => simp at hmdlen
    | cons c cs => exact ⟨c, cs, rfl⟩
  have hc_ns : pyIsSpace hc = false :=
    pyIsSpace_false_of_isDigit (hhd hc (by simp))
  have hmc_ns : pyIsSpace mc = false :=
    pyIsSpace_false_of_isDigit (hmd mc (by simp))
  have hw2head : (w2 ++ ':' :: (w3 ++ (mc :: md2 ++ w4))) = [] ∨
      ∃ c cs, (w2 ++ ':' :: (w3 ++ (mc :: md2 ++ w4))) = c :: cs ∧
        Char.isDigit c = false := by
    cases w2 with
    | nil => exact Or.inr ⟨':', _, rfl, by decide⟩
    | cons x xs =>
      exact Or.inr ⟨x, _, rfl, isDigit_false_of_pyIsSpace (hw2 x (by simp))⟩
  have hw4head : w4 = [] ∨ ∃ c cs, w4 = c :: cs ∧ Char.isDigit c = false := by
    cases w4 with
    | nil => exact Or.inl rfl
    | cons x xs =>
      exact Or.inr ⟨x, _, rfl, isDigit_false_of_pyIsSpace (hw4 x (by simp))⟩
  have e0 : (String.mk (w1 ++ (hc :: hd2) ++ w2 ++ ':' ::
      (w3 ++ (mc :: md2) ++ w4))).data =
      w1 ++ (hc :: hd2 ++ (w2 ++ ':' :: (w3 ++ (mc :: md2 ++ w4)))) := by
    simp [List.append_assoc]
  have e1 : (w1 ++ (hc :: hd2 ++ (w2 ++ ':' ::
      (w3 ++ (mc :: md2 ++ w4))))).dropWhile pyIsSpace =
      hc :: hd2 ++ (w2 ++ ':' :: (w3 ++ (mc :: md2 ++ w4))) := by
    rw [dropWhile_append_all hw1]
    apply dropWhile_self_of_head
    exact Or.inr ⟨hc, _, rfl, hc_ns⟩
  have e2 : (hc :: hd2 ++ (w2 ++ ':' ::
      (w3 ++ (mc :: md2 ++ w4)))).takeWhile Char.isDigit = hc :: hd2 := by
    rw [takeWhile_append_all hhd, takeWhile_nil_of_head hw2head,
      List.append_nil]
  have e3 : (hc :: hd2 ++ (w2 ++ ':' ::
      (w3 ++ (mc :: md2 ++ w4)))).dropWhile Char.isDigit =
      w2 ++ ':' :: (w3 ++ (mc :: md2 ++ w4)) := by
    rw [dropWhile_append_all hhd]
    exact dropWhile_self_of_head hw2head
  have e4 : (w2 ++ ':' :: (w3 ++ (mc :: md2 ++ w4))).dropWhile pyIsSpace =
      ':' :: (w3 ++ (mc :: md2 ++ w4)) := by
    rw [dropWhile_append_all hw2, List.dropWhile_cons,
      show pyIsSpace ':' = false from by decide]
    simp
  have e5 : (w3 ++ (mc :: md2 ++ w4)).dropWhile pyIsSpace =
      mc :: md2 ++ w4 := by
    rw [dropWhile_append_all hw3]
    apply dropWhile_self_of_head
    exact Or.inr ⟨mc, _, rfl, hmc_ns⟩
  have e6 : (mc :: md2 ++ w4).takeWhile Char.isDigit = mc :: md2 := by
    rw [takeWhile_append_all hmd, takeWhile_nil_of_head hw4head,
      List.append_nil]
  have e7 : (mc :: md2 ++ w4).dropWhile Char.isDigit = w4 := by
    rw [dropWhile_append_all hmd]
    exact dropWhile_self_of_head hw4head
  have hlenf : (decide ((hc :: hd2).length = 0) ||
      decide (2 < (hc :: hd2).length)) = false := by
    rcases hhdlen with h | h <;> simp [h]
  have hw4all : w4.all pyIsSpace = true := List.all_eq_true.mpr hw4
  simp only [List.cons_append, List.append_assoc] at e1 e2 e3 e4 e5 e6 e7
  unfold timeReMatch
  simp only [List.cons_append, List.append_assoc]
  simp only [e1, e2, e3, e4, e5, e6, e7, hlenf, Bool.false_eq_true,
    if_false, hmdlen, hw4all, Bool.and_self, if_true, decide_True]

/-- Inverting a successful scanner run into the relaxed-pattern
decomposition. -/
theorem timeReMatch_decomp {s : String} {h m : Nat}
    (htm : timeReMatch s = some (h, m)) :
    ∃ w1 hd w2 w3 md w4 : List Char,
      s.data = w1 ++ hd ++ w2 ++ ':' :: (w3 ++ md ++ w4) ∧
      (∀ c ∈ w1, pyIsSpace c = true) ∧ (∀ c ∈ w2, pyIsSpace c = true) ∧
      (∀ c ∈ w3, pyIsSpace c = true) ∧ (∀ c ∈ w4, pyIsSpace c = true) ∧
      (∀ c ∈ hd, c.isDigit = true) ∧ (∀ c ∈ md, c.isDigit = true) ∧
      (hd.length = 1 ∨ hd.length = 2) ∧ md.length = 2 ∧
      h = parseDigits hd ∧ m = parseDigits md := by
  unfold timeReMatch at htm
  by_cases hlen : ((s.data.dropWhile pyIsSpace).takeWhile
      Char.isDigit).length = 0 ∨
      2 < ((s.data.dropWhile pyIsSpace).takeWhile Char.isDigit).length
  · rw [if_pos (by simpa using hlen)] at htm
    cases htm
  · rw [if_neg (by simpa using hlen)] at htm
    cases hsplit : ((s.data.dropWhile pyIsSpace).dropWhile
        Char.isDigit).dropWhile pyIsSpace with
    | nil =>
      rw [hsplit] at htm
      cases htm
    | cons c r2 =>
      rw [hsplit] at htm
      replace htm : (if c = ':' then
          (if (decide (((r2.dropWhile pyIsSpace).takeWhile
                Char.isDigit).length = 2) &&
              ((r2.dropWhile pyIsSpace).dropWhile
                Char.isDigit).all pyIsSpace) = true then
            some (parseDigits ((s.data.dropWhile pyIsSpace).takeWhile
                Char.isDigit),
              parseDigits ((r2.dropWhile pyIsSpace).takeWhile Char.isDigit))
          else none)
        else none) = some (h, m) := htm
      by_cases hc : c = ':'
      · rw [if_pos hc] at htm
        by_cases hcond : ((r2.dropWhile pyIsSpace).takeWhile
            Char.isDigit).length = 2 ∧
            (((r2.dropWhile pyIsSpace).dropWhile Char.isDigit).all
              pyIsSpace = true)
        · rw [if_pos (by
            simp only [Bool.and_eq_true, decide_eq_true_eq]
            exact ⟨hcond.1, hcond.2⟩)] at htm
          subst hc
          obtain ⟨hh, hm2⟩ : parseDigits ((s.data.dropWhile
              pyIsSpace).takeWhile Char.isDigit) = h ∧
              parseDigits ((r2.dropWhile pyIsSpace).takeWhile
                Char.isDigit) = m := by
            have := Option.some.inj htm
            exact ⟨congrArg Prod.fst this, congrArg Prod.snd this⟩
          refine ⟨s.data.takeWhile pyIsSpace,
            (s.data.dropWhile pyIsSpace).takeWhile Char.isDigit,
            ((s.data.dropWhile pyIsSpace).dropWhile
              Char.isDigit).takeWhile pyIsSpace,
            r2.takeWhile pyIsSpace,
            (r2.dropWhile pyIsSpace).takeWhile Char.isDigit,
            (r2.dropWhile pyIsSpace).dropWhile Char.isDigit,
            ?_, ?_, ?_, ?_, ?_, ?_, ?_, ?_, ?_, hh.symm, hm2.symm⟩
          · -- reassemble the string
            have t1 := List.takeWhile_append_dropWhile pyIsSpace s.data
            have t2 := List.takeWhile_append_dropWhile Char.isDigit
              (s.data.dropWhile pyIsSpace)
            have t3 := List.takeWhile_append_dropWhile pyIsSpace
              ((s.data.dropWhile pyIsSpace).dropWhile Char.isDigit)
            have t4 := List.takeWhile_append_dropWhile pyIsSpace r2
            have t5 := List.takeWhile_append_dropWhile Char.isDigit
              (r2.dropWhile pyIsSpace)
            rw [hsplit] at t3
            conv_lhs => rw [← t1, ← t2, ← t3, ← t4, ← t5]
            simp [List.append_assoc]
          · exact fun c hcm => takeWhile_mem c hcm
          · exact fun c hcm => takeWhile_mem c hcm
          · exact fun c hcm => takeWhile_mem c hcm
          · exact fun c hcm => List.all_eq_true.mp hcond.2 c hcm
          · exact fun c hcm => takeWhile_mem c hcm
          · exact fun c hcm => takeWhile_mem c hcm
          · omega
          · exact hcond.1
        · rw [if_neg (by
            simpa only [Bool.and_eq_true, decide_eq_true_eq]
              using hcond)] at htm
          cases htm
      · rw [if_neg hc] at htm
        cases htm

/-- C4 counterexample: the text "9 : 30" — whitespace around the colon —
is accepted by the code's `TIME_RE` (yielding hour 9, minute 30), yet it
does not match `H:MM`/`HH:MM` with only optional *surrounding*
whitespace, which is the pattern the claim states. -/
theorem C4_counterexample :
    timeNormalize "9 : 30" = some (9, 30) ∧ specTimeStrict "9 : 30" = none := by
  constructor
  · decide
  · decide

/-- C4 (amended): a validated (hour, minute) pair is produced iff the
text matches the pattern `H:MM`/`HH:MM` in which optional whitespace may
surround the text *and the colon* (`RelaxedTime`), with hour 0–23 and
minute 0–59; and on any parse or range failure the listing row is
dropped (no draft emitted) and the per-channel invalid-time counter is
incremented; the matcher and the row loop are total functions, so no
exception escapes. -/
theorem C4_time_normalizer_amended :
    (∀ (s : String) (h m : Nat),
      timeNormalize s = some (h, m) ↔ RelaxedTime s h m) ∧
    (∀ (day : Nat) (cid : String) (t ti : String) (rs : List Row),
      timeNormalize (pyStrip t) = none →
      buildDrafts day cid ({ timeTag := some t, titleTag := some ti } :: rs) =
        ((buildDrafts day cid rs).1, (buildDrafts day cid rs).2 + 1)) := by
  constructor
  · intro s h m
    constructor
    · intro hmatch
      unfold timeNormalize at hmatch
      cases htm : timeReMatch s with
      | none => rw [htm] at hmatch; cases hmatch
      | some p =>
        obtain ⟨h2, m2⟩ := p
        rw [htm] at hmatch
        replace hmatch : (if (decide (23 < h2) || decide (59 < m2)) = true
            then none else some (h2, m2)) = some (h, m) := hmatch
        by_cases hr : (decide (23 < h2) || decide (59 < m2)) = true
        · rw [if_pos hr] at hmatch
          cases hmatch
        · rw [if_neg hr] at hmatch
          obtain ⟨rfl, rfl⟩ : h2 = h ∧ m2 = m := by
            have := Option.some.inj hmatch
            exact ⟨congrArg Prod.fst this, congrArg Prod.snd this⟩
          simp only [Bool.or_eq_true, decide_eq_true_eq, not_or,
            Nat.not_lt] at hr
          obtain ⟨w1, hd, w2, w3, md, w4, hdec, hw1, hw2, hw3, hw4,
            hhd, hmd, hhdlen, hmdlen, hh, hm2⟩ := timeReMatch_decomp htm
          exact ⟨w1, hd, w2, w3, md, w4, hdec, hw1, hw2, hw3, hw4,
            hhd, hmd, hhdlen, hmdlen, hh, hm2, hr.1, hr.2⟩
    · rintro ⟨w1, hd, w2, w3, md, w4, hdec, hw1, hw2, hw3, hw4,
        hhd, hmd, hhdlen, hmdlen, rfl, rfl, hhle, hmle⟩
      have hs : s = ⟨w1 ++ hd ++ w2 ++ ':' :: (w3 ++ md ++ w4)⟩ := by
        cases s with
        | mk d =>
          simp only at hdec
          rw [hdec]
      rw [hs]
      unfold timeNormalize
      rw [timeReMatch_build w1 hd w2 w3 md w4 hw1 hw2 hw3 hw4 hhd hmd
        hhdlen hmdlen]
      show (if (decide (23 < parseDigits hd) ||
          decide (59 < parseDigits md)) = true
        then none else some (parseDigits hd, parseDigits md)) =
        some (parseDigits hd, parseDigits md)
      rw [if_neg (by
        simp only [Bool.or_eq_true, decide_eq_true_eq, not_or, Nat.not_lt]
        exact ⟨hhle, hmle⟩)]
  · intro day cid t ti rs hnone
    simp only [buildDrafts, hnone]

/-- Witness for the amended C4: an empty time text fails the pattern, so
the row is dropped and the invalid-time counter is incremented. -/
theorem C4_time_normalizer_witness :
    buildDrafts 20240101 "c"
      [{ timeTag := some "", titleTag := some "X" }] = ([], 1) := by
  rw [C4_time_normalizer_amended.2 20240101 "c" "" "X" [] (by decide)]
  rfl

/-! ## C5: structurally malformed rows -/

/-- C5 counterexample: a row with empty time text *is* counted toward the
invalid-time counter (the claim says it is skipped without counting), and
a row whose title is empty after trimming is *kept* — with empty title —
rather than skipped. -/
theorem C5_counterexample :
    buildDrafts 20240101 "c"
      [{ timeTag := some "", titleTag := some "X" },
       { timeTag := some "9:00", titleTag := some "   " }] =
      ([{ start := fmt_xmltv_time 20240101090000, title := "",
          channel_id := "c" }], 1) := by
  have h1 : timeNormalize (pyStrip "") = none := by decide
  have h2 : timeNormalize (pyStrip "9:00") = some (9, 0) := by decide
  have h3 : pyStrip "   " = "" := by decide
  simp only [buildDrafts, h1, h2, h3]
  norm_num [mkStartKey]

/-- C5 (amended): a row lacking a time or title region is silently
skipped per-entry without touching the invalid-time counter; an entry
whose (stripped) time text is empty is dropped but *counted* toward the
invalid-time counter (it fails `TIME_RE`); entries whose title is empty
after trimming are *kept*, with the empty trimmed title; and every kept
entry's title is the trimmed text of some row's title region. -/
theorem C5_malformed_rows_amended :
    (∀ (day : Nat) (cid : String) (r : Row) (rs : List Row),
      r.timeTag = none ∨ r.titleTag = none →
      buildDrafts day cid (r :: rs) = buildDrafts day cid rs) ∧
    (∀ (day : Nat) (cid t ti : String) (rs : List Row),
      pyStrip t = "" →
      buildDrafts day cid ({ timeTag := some t, titleTag := some ti } :: rs) =
        ((buildDrafts day cid rs).1, (buildDrafts day cid rs).2 + 1)) ∧
    (∀ (day : Nat) (cid : String) (rows : List Row) (d : Draft),
      d ∈ (buildDrafts day cid rows).1 →
      ∃ r ∈ rows, ∃ ti : String, r.titleTag = some ti ∧
        d.title = pyStrip ti) := by
  refine ⟨?_, ?_, ?_⟩
  · intro day cid r rs hmiss
    obtain ⟨t1, t2⟩ := r
    rcases hmiss with h | h <;> simp only at h <;> subst h
    · simp only [buildDrafts]
    · cases t1 with
      | none => simp only [buildDrafts]
      | some t => simp only [buildDrafts]
  · intro day cid t ti rs hempty
    have : timeNormalize (pyStrip t) = none := by
      rw [hempty]
      decide
    simp only [buildDrafts, this]
  · intro day cid rows
    induction rows with
    | nil => intro d hd; cases hd
    | cons r rs ih =>
      intro d hd
      obtain ⟨t1, t2⟩ := r
      cases t1 with
      | none =>
        simp only [buildDrafts] at hd
        obtain ⟨r0, hr0, hrest⟩ := ih d hd
        exact ⟨r0, by simp [hr0], hrest⟩
      | some t =>
        cases t2 with
        | none =>
          simp only [buildDrafts] at hd
          obtain ⟨r0, hr0, hrest⟩ := ih d hd
          exact ⟨r0, by simp [hr0], hrest⟩
        | some ti =>
          simp only [buildDrafts] at hd
          cases htn : timeNormalize (pyStrip t) with
          | none =>
            rw [htn] at hd
            obtain ⟨r0, hr0, hrest⟩ := ih d hd
            exact ⟨r0, by simp [hr0], hrest⟩
          | some p =>
            obtain ⟨h, m⟩ := p
            rw [htn] at hd
            rcases List.mem_cons.mp hd with rfl | hd
            · exact ⟨{ timeTag := some t, titleTag := some ti },
                by simp, ti, rfl, rfl⟩
            · obtain ⟨r0, hr0, hrest⟩ := ih d hd
              exact ⟨r0, by simp [hr0], hrest⟩

/-- Witness for the amended C5: a row with no time region is skipped and
nothing is counted. -/
theorem C5_malformed_rows_witness :
    buildDrafts 20240101 "c"
      [{ timeTag := none, titleTag := some "X" }] = ([], 0) := by
  rw [C5_malformed_rows_amended.1 20240101 "c"
    { timeTag := none, titleTag := some "X" } [] (Or.inl rfl)]
  rfl

/-! ## C7: channel registration uniqueness and idempotence -/

theorem channelsOf_append (a b : List Elem) :
    channelsOf (a ++ b) = channelsOf a ++ channelsOf b := by
  unfold channelsOf
  exact List.filterMap_append a b _

theorem channelsOf_emitProgs (day : Nat) :
    ∀ l : List Draft, channelsOf (emitProgs day l) = []
  | [] => rfl
  | [_] => rfl
  | d :: d2 :: ds => by
    simp only [emitProgs, channelsOf, List.filterMap_cons]
    exact channelsOf_emitProgs day (d2 :: ds)

theorem channelsOf_sectionProgElems (day : Nat) (cid : String)
    (rows : List Row) :
    channelsOf (sectionProgElems day cid rows) = [] := by
  unfold sectionProgElems
  by_cases h : rows = []
  · simp [h, channelsOf]
  · simp only [h, if_false]
    exact channelsOf_emitProgs day _

theorem hasChannel_iff (doc : List Elem) (cid : String) :
    hasChannel doc cid = true ↔ cid ∈ (channelsOf doc).map Prod.fst := by
  induction doc with
  | nil => simp [hasChannel, channelsOf]
  | cons e es ih =>
    cases e with
    | channel i dn =>
      have h2 : channelsOf (Elem.channel i dn :: es) =
          (i, dn) :: channelsOf es := by
        simp [channelsOf, List.filterMap_cons]
      by_cases hi : i = cid
      · subst hi
        simp [hasChannel, h2]
      · have h1 : hasChannel (Elem.channel i dn :: es) cid =
            hasChannel es cid := by
          simp [hasChannel, hi]
        rw [h1, h2, ih]
        simp only [List.map_cons, List.mem_cons]
        constructor
        · exact fun h => Or.inr h
        · rintro (rfl | h)
          · exact absurd rfl hi
          · exact h
    | programme s st ch t =>
      have h1 : hasChannel (Elem.programme s st ch t :: es) cid =
          hasChannel es cid := by
        simp [hasChannel]
      have h2 : channelsOf (Elem.programme s st ch t :: es) =
          channelsOf es := by
        simp [channelsOf, List.filterMap_cons]
      rw [h1, h2, ih]

/-- The channel projection of one section step. -/
theorem channelsOf_processSection (day : Nat) (doc : List Elem)
    (sec : Section') :
    channelsOf (processSection day doc sec) =
      (if (pyStrip sec.channelName = "" ||
            pyStrip sec.channelName ∈ NON_CHANNEL_DISPLAY_NAMES : Bool) = true
       then channelsOf doc
       else if hasChannel doc
           (normalize_channel_id (pyStrip sec.channelName)) = true
         then channelsOf doc
         else channelsOf doc ++
           [(normalize_channel_id (pyStrip sec.channelName),
             pyStrip sec.channelName)]) := by
  unfold processSection
  by_cases hskip : (pyStrip sec.channelName = "" ||
      pyStrip sec.channelName ∈ NON_CHANNEL_DISPLAY_NAMES : Bool) = true
  · rw [if_pos hskip, if_pos hskip]
  · rw [if_neg hskip, if_neg hskip]
    show channelsOf ((if hasChannel doc
          (normalize_channel_id (pyStrip sec.channelName)) = true
        then doc
        else doc ++ [Elem.channel
          (normalize_channel_id (pyStrip sec.channelName))
          (pyStrip sec.channelName)]) ++
        sectionProgElems day
          (normalize_channel_id (pyStrip sec.channelName)) sec.rows) = _
    by_cases hhas : hasChannel doc
        (normalize_channel_id (pyStrip sec.channelName)) = true
    · rw [if_pos hhas, if_pos hhas, channelsOf_append,
        channelsOf_sectionProgElems, List.append_nil]
    · rw [if_neg hhas, if_neg hhas, channelsOf_append, channelsOf_append,
        channelsOf_sectionProgElems, List.append_nil]
      rfl

theorem nodup_processSection (day : Nat) (doc : List Elem) (sec : Section')
    (h : ((channelsOf doc).map Prod.fst).Nodup) :
    ((channelsOf (processSection day doc sec)).map Prod.fst).Nodup := by
  rw [channelsOf_processSection]
  by_cases hskip : (pyStrip sec.channelName = "" ||
      pyStrip sec.channelName ∈ NON_CHANNEL_DISPLAY_NAMES : Bool) = true
  · rwa [if_pos hskip]
  · rw [if_neg hskip]
    by_cases hhas : hasChannel doc
        (normalize_channel_id (pyStrip sec.channelName)) = true
    · rwa [if_pos hhas]
    · rw [if_neg hhas, List.map_append]
      have hnotin : normalize_channel_id (pyStrip sec.channelName) ∉
          (channelsOf doc).map Prod.fst := by
        intro hmem
        exact hhas ((hasChannel_iff doc _).mpr hmem)
      refine h.append (by simp) ?_
      intro a ha hb
      simp only [List.map_cons, List.map_nil, List.mem_cons,
        List.not_mem_nil, or_false] at hb
      subst hb
      exact hnotin ha

theorem nodup_fold_sections (day : Nat) (secs : List Section') :
    ∀ doc : List Elem, ((channelsOf doc).map Prod.fst).Nodup →
      ((channelsOf (secs.foldl (processSection day) doc)).map
        Prod.fst).Nodup := by
  induction secs with
  | nil => intro doc h; exact h
  | cons sec rest ih =>
    intro doc h
    exact ih (processSection day doc sec) (nodup_processSection day doc sec h)

theorem nodup_runPipeline (days : List (Nat × List Section')) :
    ((channelsOf (runPipeline days)).map Prod.fst).Nodup := by
  unfold runPipeline
  have : ∀ doc : List Elem, ((channelsOf doc).map Prod.fst).Nodup →
      ((channelsOf (days.foldl processDay doc)).map Prod.fst).Nodup := by
    induction days with
    | nil => intro doc h; exact h
    | cons d rest ih =>
      intro doc h
      exact ih _ (nodup_fold_sections d.1 d.2 doc h)
  exact this [] (by simp [channelsOf])

/-- C7: Across any sequence of section registrations over any days, the
document carries at most one channel element per id (`Nodup` ids);
registering a section whose normalized id is already present creates no
new channel element; and an already-recorded (id, display-name) pair
survives every later registration — so the display name recorded for an
id is the first one seen. -/
theorem C7_registration_unique_idempotent :
    (∀ days : List (Nat × List Section'),
      ((channelsOf (runPipeline days)).map Prod.fst).Nodup) ∧
    (∀ (day : Nat) (doc : List Elem) (sec : Section'),
      hasChannel doc (normalize_channel_id (pyStrip sec.channelName)) = true →
      channelsOf (processSection day doc sec) = channelsOf doc) ∧
    (∀ (day : Nat) (doc : List Elem) (sec : Section') (i dn : String),
      (i, dn) ∈ channelsOf doc →
      (i, dn) ∈ channelsOf (processSection day doc sec)) := by
  refine ⟨nodup_runPipeline, ?_, ?_⟩
  · intro day doc sec hhas
    rw [channelsOf_processSection]
    by_cases hskip : (pyStrip sec.channelName = "" ||
        pyStrip sec.channelName ∈ NON_CHANNEL_DISPLAY_NAMES : Bool) = true
    · rw [if_pos hskip]
    · rw [if_neg hskip, if_pos hhas]
  · intro day doc sec i dn hmem
    rw [channelsOf_processSection]
    by_cases hskip : (pyStrip sec.channelName = "" ||
        pyStrip sec.channelName ∈ NON_CHANNEL_DISPLAY_NAMES : Bool) = true
    · rwa [if_pos hskip]
    · rw [if_neg hskip]
      by_cases hhas : hasChannel doc
          (normalize_channel_id (pyStrip sec.channelName)) = true
      · rwa [if_pos hhas]
      · rw [if_neg hhas]
        exact List.mem_append_left _ hmem

unseal subWs in
/-- Witness for C7: registering the same header twice yields a single
channel element. -/
theorem C7_registration_witness :
    channelsOf (processSection 20240101
      (processSection 20240101 [] ⟨"TV5", []⟩) ⟨"TV5", []⟩) =
      channelsOf (processSection 20240101 [] ⟨"TV5", []⟩) := by
  apply C7_registration_unique_idempotent.2.1
  decide

/-! ## C10: two display names with one normalized id -/

theorem hasChannel_append (a b : List Elem) (c : String) :
    hasChannel (a ++ b) c = (hasChannel a c || hasChannel b c) := by
  unfold hasChannel
  exact List.any_append

theorem progsOf_append (a b : List Elem) (c : String) :
    progsOf (a ++ b) c = progsOf a c ++ progsOf b c := by
  unfold progsOf
  exact List.filterMap_append a b _

theorem progsOf_channelElem (i dn c : String) :
    progsOf [Elem.channel i dn] c = [] := rfl

/-- Shape of `processSection` on a fresh id: channel element then
programme
block. -/
theorem processSection_eq_new (day : Nat) (doc : List Elem) (sec : Section')
    (hskip : (pyStrip sec.channelName = "" ||
      pyStrip sec.channelName ∈ NON_CHANNEL_DISPLAY_NAMES : Bool) = false)
    (hhas : hasChannel doc
      (normalize_channel_id (pyStrip sec.channelName)) = false) :
    processSection day doc sec =
      (doc ++ [Elem.channel (normalize_channel_id (pyStrip sec.channelName))
        (pyStrip sec.channelName)]) ++
        sectionProgElems day
          (normalize_channel_id (pyStrip sec.channelName)) sec.rows := by
  unfold processSection
  rw [if_neg (by simp [hskip])]
  show (if hasChannel doc
      (normalize_channel_id (pyStrip sec.channelName)) = true
    then doc
    else doc ++ [Elem.channel
      (normalize_channel_id (pyStrip sec.channelName))
      (pyStrip sec.channelName)]) ++
    sectionProgElems day
      (normalize_channel_id (pyStrip sec.channelName)) sec.rows = _
  rw [if_neg (by simp [hhas])]

/-- Shape of `processSection` on an already-registered id: programme
block only. -/
theorem processSection_eq_old (day : Nat) (doc : List Elem) (sec : Section')
    (hskip : (pyStrip sec.channelName = "" ||
      pyStrip sec.channelName ∈ NON_CHANNEL_DISPLAY_NAMES : Bool) = false)
    (hhas : hasChannel doc
      (normalize_channel_id (pyStrip sec.channelName)) = true) :
    processSection day doc sec =
      doc ++ sectionProgElems day
        (normalize_channel_id (pyStrip sec.channelName)) sec.rows := by
  unfold processSection
  rw [if_neg (by simp [hskip])]
  show (if hasChannel doc
      (normalize_channel_id (pyStrip sec.channelName)) = true
    then doc
    else doc ++ [Elem.channel
      (normalize_channel_id (pyStrip sec.channelName))
      (pyStrip sec.channelName)]) ++
    sectionProgElems day
      (normalize_channel_id (pyStrip sec.channelName)) sec.rows = _
  rw [if_pos hhas]

/-- Bridge: on an id the XPath predicate can carry, the error-aware
section step succeeds and agrees with the total model. -/
theorem processSectionE_ok (day : Nat) (doc : List Elem) (sec : Section')
    (hq : xpathPredicateOk
      (normalize_channel_id (pyStrip sec.channelName)) = true) :
    processSectionE day doc sec = Except.ok (processSection day doc sec) := by
  unfold processSectionE processSection tvFindChannel
  simp only [hq]
  split
  · rfl
  · simp

/-- First display name of the counterexample: `O`, a single quote, `B`,
one space, `A`. -/
def nameQ1 : String := "O" ++ squote.toString ++ "B A"

/-- Second display name: same as `nameQ1` but with two internal spaces,
so the two names differ only in internal whitespace and share the
normalized id `O`-quote-`B_A`. -/
def nameQ2 : String := "O" ++ squote.toString ++ "B  A"

unseal subWs in
/-- C10 counterexample: the display names `nameQ1` and `nameQ2` differ
only in the number of internal whitespace characters and normalize to
the same channel id, yet that id contains a single quote, so the XPath
lookup of epg.py line 127 raises SyntaxError at the very first
registration: the run aborts with an error and neither section's
programmes are emitted, contradicting the claim that no error or skip
occurs for every such pair. -/
theorem C10_counterexample :
    nameQ1 ≠ nameQ2 ∧
    normalize_channel_id (pyStrip nameQ1) =
      normalize_channel_id (pyStrip nameQ2) ∧
    runPipelineE [(20240101, [{ channelName := nameQ1, rows := [] },
        { channelName := nameQ2, rows := [] }])] =
      Except.error "invalid predicate" := by
  refine ⟨by decide, by decide, ?_⟩
  rfl

/-- C10 amended: if two sections' display names normalize to the same
channel id and that id is free of single quotes, neither raises and
neither is skipped: both error-aware steps succeed, processing both (the
first on a fresh id) yields exactly one channel element, carrying the
first section's display name, and the programme blocks of *both*
sections are appended under that single id. -/
theorem C10_shared_id_sections_amended (day1 day2 : Nat) (doc : List Elem)
    (sec1 sec2 : Section')
    (h1e : ¬ pyStrip sec1.channelName = "")
    (h1b : pyStrip sec1.channelName ∉ NON_CHANNEL_DISPLAY_NAMES)
    (h2e : ¬ pyStrip sec2.channelName = "")
    (h2b : pyStrip sec2.channelName ∉ NON_CHANNEL_DISPLAY_NAMES)
    (hsame : normalize_channel_id (pyStrip sec2.channelName) =
      normalize_channel_id (pyStrip sec1.channelName))
    (hq : xpathPredicateOk
      (normalize_channel_id (pyStrip sec1.channelName)) = true)
    (hnew : hasChannel doc
      (normalize_channel_id (pyStrip sec1.channelName)) = false) :
    processSectionE day1 doc sec1 = Except.ok (processSection day1 doc sec1) ∧
    processSectionE day2 (processSection day1 doc sec1) sec2 =
      Except.ok (processSection day2 (processSection day1 doc sec1) sec2) ∧
    channelsOf (processSection day2 (processSection day1 doc sec1) sec2) =
      channelsOf doc ++ [(normalize_channel_id (pyStrip sec1.channelName),
        pyStrip sec1.channelName)] ∧
    progsOf (processSection day2 (processSection day1 doc sec1) sec2)
        (normalize_channel_id (pyStrip sec1.channelName)) =
      (progsOf doc (normalize_channel_id (pyStrip sec1.channelName)) ++
        progsOf (sectionProgElems day1
          (normalize_channel_id (pyStrip sec1.channelName)) sec1.rows)
          (normalize_channel_id (pyStrip sec1.channelName))) ++
        progsOf (sectionProgElems day2
          (normalize_channel_id (pyStrip sec1.channelName)) sec2.rows)
          (normalize_channel_id (pyStrip sec1.channelName)) := by
  have hq2 : xpathPredicateOk
      (normalize_channel_id (pyStrip sec2.channelName)) = true := by
    rw [hsame]; exact hq
  have hskip1 : (pyStrip sec1.channelName = "" ||
      pyStrip sec1.channelName ∈ NON_CHANNEL_DISPLAY_NAMES : Bool) = false := by
    simp [h1e, h1b]
  have hskip2 : (pyStrip sec2.channelName = "" ||
      pyStrip sec2.channelName ∈ NON_CHANNEL_DISPLAY_NAMES : Bool) = false := by
    simp [h2e, h2b]
  have hd1 := processSection_eq_new day1 doc sec1 hskip1 hnew
  have hhas2 : hasChannel (processSection day1 doc sec1)
      (normalize_channel_id (pyStrip sec2.channelName)) = true := by
    rw [hsame, hd1, hasChannel_append, hasChannel_append]
    have : hasChannel [Elem.channel
        (normalize_channel_id (pyStrip sec1.channelName))
        (pyStrip sec1.channelName)]
        (normalize_channel_id (pyStrip sec1.channelName)) = true := by
      simp [hasChannel]
    rw [this]
    simp
  have hd2 := processSection_eq_old day2 (processSection day1 doc sec1)
    sec2 hskip2 hhas2
  refine ⟨processSectionE_ok day1 doc sec1 hq,
    processSectionE_ok day2 (processSection day1 doc sec1) sec2 hq2, ?_, ?_⟩
  · rw [hd2, hsame, hd1]
    simp only [channelsOf_append, channelsOf_sectionProgElems,
      List.append_nil]
    simp [channelsOf]
  · rw [hd2, hsame, hd1]
    rw [progsOf_append, progsOf_append, progsOf_append,
      progsOf_channelElem, List.append_nil]

unseal subWs in
/-- Witness for the amended C10: "A B" and "A  B" (quote-free) normalize
to the same id `A_B`; both error-aware steps succeed and registering
both yields one channel element carrying "A B". -/
theorem C10_shared_id_sections_amended_witness :
    processSectionE 2 (processSection 1 []
        { channelName := "A B", rows := [] })
        { channelName := "A  B", rows := [] } =
      Except.ok (processSection 2 (processSection 1 []
        { channelName := "A B", rows := [] })
        { channelName := "A  B", rows := [] }) ∧
    channelsOf (processSection 2 (processSection 1 []
        { channelName := "A B", rows := [] })
        { channelName := "A  B", rows := [] }) =
      [("A_B", "A B")] := by
  have h := C10_shared_id_sections_amended 1 2 []
    { channelName := "A B", rows := [] }
    { channelName := "A  B", rows := [] } (by decide) (by decide) (by decide)
    (by decide) (by decide) (by decide) (by decide)
  refine ⟨h.2.1, ?_⟩
  rw [h.2.2.1]
  decide

/-! ## C8: whole-store ordering -/

/-- The normalized id a section registers under. -/
def secId (sec : Section') : String :=
  normalize_channel_id (pyStrip sec.channelName)

unseal subWs List.merge List.mergeSort in
set_option maxRecDepth 10000 in
/-- C8 counterexample: on a single day, two sections whose display names
"A B" and "A  B" both normalize to id `A_B` are emitted one after the
other, so the channel's programme start keys in document order are
09:00, 10:00, 09:30 — not non-decreasing. -/
theorem C8_counterexample :
    progKeysOf (runPipeline [(20240101,
      [{ channelName := "A B",
         rows := [{ timeTag := some "09:00", titleTag := some "x" },
                  { timeTag := some "10:00", titleTag := some "y" }] },
       { channelName := "A  B",
         rows := [{ timeTag := some "09:30", titleTag := some "z" }] }])])
      "A_B" = [20240101090000, 20240101100000, 20240101093000] ∧
    ¬ (progKeysOf (runPipeline [(20240101,
      [{ channelName := "A B",
         rows := [{ timeTag := some "09:00", titleTag := some "x" },
                  { timeTag := some "10:00", titleTag := some "y" }] },
       { channelName := "A  B",
         rows := [{ timeTag := some "09:30", titleTag := some "z" }] }])])
      "A_B").Pairwise (· ≤ ·) := by
  constructor
  · decide
  · decide

theorem progKeysOf_append (a b : List Elem) (c : String) :
    progKeysOf (a ++ b) c = progKeysOf a c ++ progKeysOf b c := by
  unfold progKeysOf
  rw [progsOf_append, List.map_append]

theorem progKeysOf_cons_channel (i dn c : String) (rest : List Elem) :
    progKeysOf (Elem.channel i dn :: rest) c = progKeysOf rest c := by
  simp [progKeysOf, progsOf, List.filterMap_cons]

theorem progKeysOf_cons_prog_eq (s st t c : String) (rest : List Elem) :
    progKeysOf (Elem.programme s st c t :: rest) c =
      to_int s :: progKeysOf rest c := by
  simp [progKeysOf, progsOf, List.filterMap_cons]

theorem progKeysOf_cons_prog_ne {ch c : String} (s st t : String)
    (h : ¬ ch = c) (rest : List Elem) :
    progKeysOf (Elem.programme s st ch t :: rest) c = progKeysOf rest c := by
  simp [progKeysOf, progsOf, List.filterMap_cons, h]

theorem timeNormalize_le {s : String} {h m : Nat}
    (ht : timeNormalize s = some (h, m)) : h ≤ 23 ∧ m ≤ 59 := by
  unfold timeNormalize at ht
  cases htm : timeReMatch s with
  | none => rw [htm] at ht; cases ht
  | some p =>
    obtain ⟨h2, m2⟩ := p
    rw [htm] at ht
    replace ht : (if (decide (23 < h2) || decide (59 < m2)) = true then none
        else some (h2, m2)) = some (h, m) := ht
    by_cases hr : (decide (23 < h2) || decide (59 < m2)) = true
    · rw [if_pos hr] at ht
      cases ht
    · rw [if_neg hr] at ht
      obtain ⟨rfl, rfl⟩ : h2 = h ∧ m2 = m :=
        ⟨congrArg Prod.fst (Option.some.inj ht),
         congrArg Prod.snd (Option.some.inj ht)⟩
      simp only [Bool.or_eq_true, decide_eq_true_eq, not_or,
        Nat.not_lt] at hr
      exact hr

theorem buildDrafts_start (day : Nat) (cid : String) :
    ∀ rows : List Row, ∀ d ∈ (buildDrafts day cid rows).1,
      d.channel_id = cid ∧ ∃ h m, h ≤ 23 ∧ m ≤ 59 ∧
        d.start = fmt_xmltv_time (mkStartKey day h m) := by
  intro rows
  induction rows with
  | nil => intro d hd; cases hd
  | cons r rs ih =>
    intro d hd
    obtain ⟨t1, t2⟩ := r
    cases t1 with
    | none =>
      simp only [buildDrafts] at hd
      exact ih d hd
    | some t =>
      cases t2 with
      | none =>
        simp only [buildDrafts] at hd
        exact ih d hd
      | some ti =>
        simp only [buildDrafts] at hd
        cases htn : timeNormalize (pyStrip t) with
        | none =>
          rw [htn] at hd
          exact ih d hd
        | some p =>
          obtain ⟨h, m⟩ := p
          rw [htn] at hd
          rcases List.mem_cons.mp hd with rfl | hd
          · obtain ⟨hh, hm⟩ := timeNormalize_le htn
            exact ⟨rfl, h, m, hh, hm, rfl⟩
          · exact ih d hd

theorem progKeysOf_emitProgs_self (day : Nat) (cid : String) :
    ∀ l : List Draft, (∀ d ∈ l, d.channel_id = cid) →
      progKeysOf (emitProgs day l) cid = l.map (fun d => to_int d.start)
  | [], _ => rfl
  | [d], h => by
    have hc := h d (by simp)
    simp only [emitProgs, hc]
    rw [progKeysOf_cons_prog_eq]
    rfl
  | d :: d2 :: ds, h => by
    have hc := h d (by simp)
    have ht := progKeysOf_emitProgs_self day cid (d2 :: ds)
      (fun x hx => h x (List.mem_cons_of_mem _ hx))
    simp only [emitProgs, hc]
    rw [progKeysOf_cons_prog_eq, ht]
    rfl

theorem progKeysOf_emitProgs_other (day : Nat) (cid c : String)
    (hc : ¬ c = cid) :
    ∀ l : List Draft, (∀ d ∈ l, d.channel_id = cid) →
      progKeysOf (emitProgs day l) c = []
  | [], _ => rfl
  | [d], h => by
    have hcd := h d (by simp)
    simp only [emitProgs, hcd]
    rw [progKeysOf_cons_prog_ne _ _ _ (fun hx => hc hx.symm)]
    rfl
  | d :: d2 :: ds, h => by
    have hcd := h d (by simp)
    have ht := progKeysOf_emitProgs_other day cid c hc (d2 :: ds)
      (fun x hx => h x (List.mem_cons_of_mem _ hx))
    simp only [emitProgs, hcd]
    rw [progKeysOf_cons_prog_ne _ _ _ (fun hx => hc hx.symm), ht]

theorem dedupSort_subset (l : List Draft) :
    ∀ d ∈ sortDrafts (dedupGo [] l), d ∈ l := by
  intro d hd
  exact dedupGo_subset l [] d ((List.mergeSort_perm _ _).mem_iff.mp hd)

/-- Strictly increasing numeric keys after dedup + sort, for drafts whose
starts are wire-formatted keys. -/
theorem dedupSort_strict (l : List Draft)
    (hfmt : ∀ d ∈ l, ∃ k, k < 10 ^ 14 ∧ d.start = fmt_xmltv_time k) :
    (sortDrafts (dedupGo [] l)).Pairwise
      (fun a b => to_int a.start < to_int b.start) := by
  have hperm : (sortDrafts (dedupGo [] l)).Perm (dedupGo [] l) :=
    List.mergeSort_perm _ _
  have hne : (sortDrafts (dedupGo [] l)).Pairwise
      (fun a b => a.start ≠ b.start) :=
    (hperm.pairwise_iff (fun hab => Ne.symm hab)).mpr (dedupGo_distinct l []).1
  have hsorted : (sortDrafts (dedupGo [] l)).Pairwise
      (fun a b => to_int a.start ≤ to_int b.start) := by
    have := @List.sorted_mergeSort Draft
      (fun a b : Draft => decide (to_int a.start ≤ to_int b.start))
      (by intro a b c hab hbc
          simp only [decide_eq_true_eq] at hab hbc ⊢
          omega)
      (by intro a b
          simp only [Bool.or_eq_true, decide_eq_true_eq]
          omega)
      (dedupGo [] l)
    exact this.imp (by intro a b h; simpa using h)
  refine List.Pairwise.imp_of_mem ?_ (hsorted.and hne)
  intro a b ha hb hab
  obtain ⟨ka, hkalt, hka⟩ := hfmt a (dedupSort_subset l a ha)
  obtain ⟨kb, hkblt, hkb⟩ := hfmt b (dedupSort_subset l b hb)
  rcases Nat.lt_or_ge (to_int a.start) (to_int b.start) with h | h
  · exact h
  · exfalso
    apply hab.2
    have : to_int a.start = to_int b.start := by omega
    rw [hka, hkb, to_int_fmt ka hkalt, to_int_fmt kb hkblt] at this
    rw [hka, hkb, this]

theorem progKeysOf_sectionProgElems_self (day : Nat) (cid : String)
    (rows : List Row) :
    progKeysOf (sectionProgElems day cid rows) cid =
      (sortDrafts (dedupGo [] (buildDrafts day cid rows).1)).map
        (fun d => to_int d.start) := by
  unfold sectionProgElems
  by_cases h : rows = []
  · subst h
    show ([] : List Nat) = _
    simp [buildDrafts, dedupGo, sortDrafts]
  · rw [if_neg h]
    exact progKeysOf_emitProgs_self day cid _
      (fun d hd => (buildDrafts_start day cid rows d
        (dedupSort_subset _ d hd)).1)

theorem progKeysOf_sectionProgElems_other (day : Nat) (cid c : String)
    (hc : ¬ c = cid) (rows : List Row) :
    progKeysOf (sectionProgElems day cid rows) c = [] := by
  unfold sectionProgElems
  by_cases h : rows = []
  · rw [if_pos h]
    rfl
  · rw [if_neg h]
    exact progKeysOf_emitProgs_other day cid c hc _
      (fun d hd => (buildDrafts_start day cid rows d
        (dedupSort_subset _ d hd)).1)

/-- The keys a section's block carries: strictly increasing and inside
the section's day. -/
theorem blockKeys_facts (day : Nat) (cid : String) (rows : List Row)
    (hday : day < 100000000) :
    ((sortDrafts (dedupGo [] (buildDrafts day cid rows).1)).map
      (fun d => to_int d.start)).Pairwise (· < ·) ∧
    (∀ k ∈ (sortDrafts (dedupGo [] (buildDrafts day cid rows).1)).map
      (fun d => to_int d.start),
      day * 1000000 ≤ k ∧ k < (day + 1) * 1000000) := by
  have hfmt : ∀ d ∈ (buildDrafts day cid rows).1,
      ∃ k, k < 10 ^ 14 ∧ d.start = fmt_xmltv_time k := by
    intro d hd
    obtain ⟨_, h, m, hh, hm, hs⟩ := buildDrafts_start day cid rows d hd
    refine ⟨mkStartKey day h m, ?_, hs⟩
    have h1 := mkStartKey_lt day h m hh hm
    calc mkStartKey day h m < (day + 1) * 1000000 := h1
      _ ≤ 100000000 * 1000000 := Nat.mul_le_mul_right _ (by omega)
      _ ≤ 10 ^ 14 := by norm_num
  constructor
  · have := dedupSort_strict (buildDrafts day cid rows).1 hfmt
    exact List.pairwise_map.mpr this
  · intro k hk
    rw [List.mem_map] at hk
    obtain ⟨d, hd, rfl⟩ := hk
    obtain ⟨_, h, m, hh, hm, hs⟩ := buildDrafts_start day cid rows d
      (dedupSort_subset _ d hd)
    have h1 := mkStartKey_lt day h m hh hm
    have hlt : mkStartKey day h m < 10 ^ 14 := by
      calc mkStartKey day h m < (day + 1) * 1000000 := h1
        _ ≤ 100000000 * 1000000 := Nat.mul_le_mul_right _ (by omega)
        _ ≤ 10 ^ 14 := by norm_num
    rw [hs, to_int_fmt (mkStartKey day h m) hlt]
    exact ⟨mkStartKey_ge day h m, h1⟩

/-- The keys one section step appends per channel. -/
theorem progKeysOf_processSection (day : Nat) (doc : List Elem)
    (sec : Section') (c : String) :
    progKeysOf (processSection day doc sec) c =
      progKeysOf doc c ++
        (if (pyStrip sec.channelName = "" ||
             pyStrip sec.channelName ∈ NON_CHANNEL_DISPLAY_NAMES : Bool) = true
         then []
         else if c = secId sec
         then (sortDrafts (dedupGo [] (buildDrafts day (secId sec)
             sec.rows).1)).map (fun d => to_int d.start)
         else []) := by
  unfold secId
  by_cases hskip : (pyStrip sec.channelName = "" ||
      pyStrip sec.channelName ∈ NON_CHANNEL_DISPLAY_NAMES : Bool) = true
  · rw [if_pos hskip]
    unfold processSection
    rw [if_pos hskip, List.append_nil]
  · rw [if_neg hskip]
    by_cases hhas : hasChannel doc
        (normalize_channel_id (pyStrip sec.channelName)) = true
    · rw [processSection_eq_old day doc sec (by simpa using hskip) hhas,
        progKeysOf_append]
      by_cases hc : c = normalize_channel_id (pyStrip sec.channelName)
      · rw [if_pos hc, hc, progKeysOf_sectionProgElems_self]
      · rw [if_neg hc, progKeysOf_sectionProgElems_other day _ c hc]
    · rw [processSection_eq_new day doc sec (by simpa using hskip)
        (by simpa using hhas), progKeysOf_append, progKeysOf_append,
        progKeysOf_cons_channel]
      rw [show progKeysOf ([] : List Elem) c = [] from rfl, List.append_nil]
      by_cases hc : c = normalize_channel_id (pyStrip sec.channelName)
      · rw [if_pos hc, hc, progKeysOf_sectionProgElems_self]
      · rw [if_neg hc, progKeysOf_sectionProgElems_other day _ c hc]

/-- Folding one day's sections with pairwise-distinct ids keeps every
channel's key list strictly increasing, provided channels still to be
touched today hold only keys from earlier days. -/
theorem fold_sections_keys (day : Nat) (hday : day < 100000000) :
    ∀ (secs : List Section') (doc : List Elem),
      (secs.map secId).Nodup →
      (∀ c, (progKeysOf doc c).Pairwise (· < ·)) →
      (∀ c, c ∈ secs.map secId →
        ∀ k ∈ progKeysOf doc c, k < day * 1000000) →
      (∀ c, ∀ k ∈ progKeysOf doc c, k < (day + 1) * 1000000) →
      (∀ c, (progKeysOf (secs.foldl (processSection day) doc) c).Pairwise
        (· < ·)) ∧
      (∀ c, ∀ k ∈ progKeysOf (secs.foldl (processSection day) doc) c,
        k < (day + 1) * 1000000) := by
  intro secs
  induction secs with
  | nil =>
    intro doc _ hpw _ hb4
    exact ⟨hpw, hb4⟩
  | cons sec rest ih =>
    intro doc hnodup hpw hb3 hb4
    rw [List.map_cons, List.nodup_cons] at hnodup
    obtain ⟨hnotin, hnodup'⟩ := hnodup
    rw [List.foldl_cons]
    have hblock := blockKeys_facts day (secId sec) sec.rows hday
    have hkeys := progKeysOf_processSection day doc sec
    have hpw' : ∀ c, (progKeysOf (processSection day doc sec) c).Pairwise
        (· < ·) := by
      intro c
      rw [hkeys c]
      by_cases hskip : (pyStrip sec.channelName = "" ||
          pyStrip sec.channelName ∈ NON_CHANNEL_DISPLAY_NAMES : Bool) = true
      · rw [if_pos hskip, List.append_nil]
        exact hpw c
      · rw [if_neg hskip]
        by_cases hc : c = secId sec
        · rw [if_pos hc]
          rw [List.pairwise_append]
          refine ⟨hpw c, hblock.1, ?_⟩
          intro a ha b hb
          have ha' : a < day * 1000000 := hb3 c (by
            rw [List.map_cons, hc]
            exact List.mem_cons_self _ _) a ha
          have hb' := (hblock.2 b hb).1
          omega
        · rw [if_neg hc, List.append_nil]
          exact hpw c
    have hb4' : ∀ c, ∀ k ∈ progKeysOf (processSection day doc sec) c,
        k < (day + 1) * 1000000 := by
      intro c k hk
      rw [hkeys c] at hk
      rcases List.mem_append.mp hk with hk | hk
      · exact hb4 c k hk
      · by_cases hskip : (pyStrip sec.channelName = "" ||
            pyStrip sec.channelName ∈ NON_CHANNEL_DISPLAY_NAMES : Bool) = true
        · rw [if_pos hskip] at hk
          cases hk
        · rw [if_neg hskip] at hk
          by_cases hc : c = secId sec
          · rw [if_pos hc] at hk
            exact (hblock.2 k hk).2
          · rw [if_neg hc] at hk
            cases hk
    have hb3' : ∀ c, c ∈ rest.map secId →
        ∀ k ∈ progKeysOf (processSection day doc sec) c,
          k < day * 1000000 := by
      intro c hcrest k hk
      have hcne : ¬ c = secId sec := by
        intro hceq
        exact hnotin (hceq ▸ hcrest)
      rw [hkeys c] at hk
      rcases List.mem_append.mp hk with hk | hk
      · exact hb3 c (by rw [List.map_cons]; exact
          List.mem_cons_of_mem _ hcrest) k hk
      · by_cases hskip : (pyStrip sec.channelName = "" ||
            pyStrip sec.channelName ∈ NON_CHANNEL_DISPLAY_NAMES : Bool) = true
        · rw [if_pos hskip] at hk
          cases hk
        · rw [if_neg hskip, if_neg hcne] at hk
          cases hk
    exact ih (processSection day doc sec) hnodup' hpw' hb3' hb4'

theorem runPipeline_keys_aux :
    ∀ (days : List (Nat × List Section')) (doc : List Elem),
      (∀ d ∈ days, d.1 < 100000000) →
      (days.map Prod.fst).Pairwise (· < ·) →
      (∀ d ∈ days, (d.2.map secId).Nodup) →
      (∀ c, (progKeysOf doc c).Pairwise (· < ·)) →
      (∀ c k, k ∈ progKeysOf doc c →
        ∀ d0 ∈ days.map Prod.fst, k < d0 * 1000000) →
      ∀ c, (progKeysOf (days.foldl processDay doc) c).Pairwise (· < ·) := by
  intro days
  induction days with
  | nil =>
    intro doc _ _ _ hpw _ c
    exact hpw c
  | cons d rest ih =>
    intro doc hbound hinc hids hpw hb c
    rw [List.foldl_cons]
    rw [List.map_cons, List.pairwise_cons] at hinc
    have hday : d.1 < 100000000 := hbound d (List.mem_cons_self _ _)
    have hstep := fold_sections_keys d.1 hday d.2 doc
      (hids d (List.mem_cons_self _ _)) hpw
      (fun c hc k hk => hb c k hk d.1 (by
        rw [List.map_cons]
        exact List.mem_cons_self _ _))
      (fun c k hk => by
        have := hb c k hk d.1 (by
          rw [List.map_cons]
          exact List.mem_cons_self _ _)
        omega)
    refine ih (processDay doc d) (fun x hx => hbound x
      (List.mem_cons_of_mem _ hx)) hinc.2
      (fun x hx => hids x (List.mem_cons_of_mem _ hx))
      (fun c2 => hstep.1 c2) ?_ c
    intro c2 k hk d0 hd0
    have hk1 : k < (d.1 + 1) * 1000000 := hstep.2 c2 k hk
    have hd0gt : d.1 < d0 := by
      rw [List.mem_map] at hd0
      obtain ⟨x, hx, rfl⟩ := hd0
      exact hinc.1 x.1 (List.mem_map_of_mem Prod.fst hx)
    have : (d.1 + 1) * 1000000 ≤ d0 * 1000000 :=
      Nat.mul_le_mul_right _ (by omega)
    omega

/-- C8 (amended): provided the fetched days are processed in strictly
increasing calendar order (with valid `YYYYMMDD` keys) and no two
sections of the same day normalize to the same channel id, the
document's programme start keys are strictly increasing per channel in
document order — hence non-decreasing, with no duplicated start.  (The
counterexample shows the claim fails as stated when two sections of one
day share a normalized id.) -/
theorem C8_store_ordering_amended (days : List (Nat × List Section'))
    (hbound : ∀ d ∈ days, d.1 < 100000000)
    (hinc : List.Chain' (· < ·) (days.map Prod.fst))
    (hids : ∀ d ∈ days, (d.2.map secId).Nodup) :
    ∀ c, (progKeysOf (runPipeline days) c).Pairwise (· < ·) := by
  unfold runPipeline
  apply runPipeline_keys_aux days [] hbound
  · exact List.chain'_iff_pairwise.mp hinc
  · exact hids
  · intro c
    exact List.Pairwise.nil
  · intro c k hk
    cases hk

unseal subWs in
/-- Witness for the amended C8: one channel over two consecutive days. -/
theorem C8_store_ordering_witness :
    (progKeysOf (runPipeline [(20240101,
        [{ channelName := "TV5",
           rows := [{ timeTag := some "09:00", titleTag := some "x" }] }]),
      (20240102,
        [{ channelName := "TV5",
           rows := [{ timeTag := some "08:00", titleTag := some "y" }] }])])
      "TV5").Pairwise (· < ·) := by
  apply C8_store_ordering_amended
  · intro d hd
    simp only [List.mem_cons, List.not_mem_nil, or_false] at hd
    rcases hd with rfl | rfl
    · norm_num
    · norm_num
  · simp only [List.map_cons, List.map_nil]
    norm_num [List.chain'_cons, List.chain'_singleton]
  · intro d hd
    simp only [List.mem_cons, List.not_mem_nil, or_false] at hd
    rcases hd with rfl | rfl
    · decide
    · decide

/-! ## C9: serialization round-trip -/

theorem lookup_foldl_not_mem (ps : List (String × String)) (i : String) :
    ∀ acc : Option String, i ∉ ps.map Prod.fst →
      ps.foldl (fun acc p => if p.1 = i then some p.2 else acc) acc = acc := by
  induction ps with
  | nil => intro acc _; rfl
  | cons p ps' ih =>
    intro acc hnm
    rw [List.map_cons, List.mem_cons] at hnm
    rw [List.foldl_cons, if_neg (fun h => hnm (Or.inl h.symm))]
    exact ih acc (fun h => hnm (Or.inr h))

theorem lookup_foldl_mem (ps : List (String × String)) (i dn : String) :
    ∀ acc : Option String, (ps.map Prod.fst).Nodup → (i, dn) ∈ ps →
      ps.foldl (fun acc p => if p.1 = i then some p.2 else acc) acc =
        some dn := by
  induction ps with
  | nil => intro acc _ hmem; cases hmem
  | cons p ps' ih =>
    intro acc hnod hmem
    rw [List.map_cons, List.nodup_cons] at hnod
    rw [List.foldl_cons]
    rcases List.mem_cons.mp hmem with rfl | hmem'
    · rw [if_pos rfl]
      exact lookup_foldl_not_mem ps' i _ hnod.1
    · by_cases hp : p.1 = i
      · exfalso
        apply hnod.1
        rw [hp]
        exact List.mem_map_of_mem Prod.fst hmem'
      · rw [if_neg hp]
        exact ih acc hnod.2 hmem'

theorem readerProgs_eq (c : String) :
    ∀ doc : List Elem,
      (∀ s st ch t, Elem.programme s st ch t ∈ doc →
        (∃ k, validTS k = true ∧ s = fmt_xmltv_time k) ∧
        (∃ k, validTS k = true ∧ st = fmt_xmltv_time k)) →
      readerProgs doc c = (progsOf doc c).map
        (fun x => (some (to_int x.1), some (to_int x.2.1), x.2.2)) := by
  intro doc
  induction doc with
  | nil => intro _; rfl
  | cons e es ih =>
    intro hts
    have hts' : ∀ s st ch t, Elem.programme s st ch t ∈ es →
        (∃ k, validTS k = true ∧ s = fmt_xmltv_time k) ∧
        (∃ k, validTS k = true ∧ st = fmt_xmltv_time k) :=
      fun s st ch t h => hts s st ch t (List.mem_cons_of_mem _ h)
    cases e with
    | channel i dn =>
      rw [show readerProgs (Elem.channel i dn :: es) c = readerProgs es c
          from by simp [readerProgs, List.filterMap_cons],
        show progsOf (Elem.channel i dn :: es) c = progsOf es c
          from by simp [progsOf, List.filterMap_cons]]
      exact ih hts'
    | programme s st ch t =>
      by_cases hc : ch = c
      · subst hc
        obtain ⟨⟨ks, hks, hs⟩, kst, hkst, hst⟩ :=
          hts s st ch t (List.mem_cons_self _ _)
        have e1 : _parse_ts s = some (to_int s) := by
          rw [hs, _parse_ts_fmt ks hks, to_int_fmt ks (validTS_lt ks hks)]
        have e2 : _parse_ts st = some (to_int st) := by
          rw [hst, _parse_ts_fmt kst hkst, to_int_fmt kst (validTS_lt kst hkst)]
        rw [show readerProgs (Elem.programme s st ch t :: es) ch =
            (_parse_ts s, _parse_ts st, t) :: readerProgs es ch
          from by simp [readerProgs, List.filterMap_cons],
          show progsOf (Elem.programme s st ch t :: es) ch =
            (s, st, t) :: progsOf es ch
          from by simp [progsOf, List.filterMap_cons]]
        rw [List.map_cons, e1, e2, ih hts']
      · rw [show readerProgs (Elem.programme s st ch t :: es) c =
            readerProgs es c
          from by simp [readerProgs, List.filterMap_cons, hc],
          show progsOf (Elem.programme s st ch t :: es) c = progsOf es c
          from by simp [progsOf, List.filterMap_cons, hc]]
        exact ih hts'

/-- C9: For a document whose channel ids are pairwise distinct and whose
programme `start`/`stop` attributes are wire-formatted valid timestamps
(both true of every pipeline-produced document), re-reading the
serialized document with `run_qc`'s reader reproduces every channel's
display name and, per channel, exactly the original sequence of
(start, stop, title) triples with the timestamps recovered. -/
theorem C9_serialization_roundtrip (doc : List Elem)
    (hnod : ((channelsOf doc).map Prod.fst).Nodup)
    (hts : ∀ s st ch t, Elem.programme s st ch t ∈ doc →
      (∃ k, validTS k = true ∧ s = fmt_xmltv_time k) ∧
      (∃ k, validTS k = true ∧ st = fmt_xmltv_time k)) :
    (∀ i dn, (i, dn) ∈ channelsOf doc →
      readerChannelLookup doc i = some dn) ∧
    (∀ c, readerProgs doc c = (progsOf doc c).map
      (fun x => (some (to_int x.1), some (to_int x.2.1), x.2.2))) := by
  constructor
  · intro i dn hmem
    exact lookup_foldl_mem (channelsOf doc) i dn none hnod hmem
  · intro c
    exact readerProgs_eq c doc hts

/-- Witness for C9 on a one-channel, one-programme document. -/
theorem C9_serialization_roundtrip_witness :
    readerChannelLookup [Elem.channel "c" "C",
      Elem.programme (fmt_xmltv_time 20240101090000)
        (fmt_xmltv_time 20240101235959) "c" "t"] "c" = some "C" ∧
    readerProgs [Elem.channel "c" "C",
      Elem.programme (fmt_xmltv_time 20240101090000)
        (fmt_xmltv_time 20240101235959) "c" "t"] "c" =
      [(some 20240101090000, some 20240101235959, "t")] := by
  have h := C9_serialization_roundtrip [Elem.channel "c" "C",
      Elem.programme (fmt_xmltv_time 20240101090000)
        (fmt_xmltv_time 20240101235959) "c" "t"]
    (by decide)
    (by
      intro s st ch t hmem
      simp only [List.mem_cons, List.not_mem_nil, or_false] at hmem
      rcases hmem with hmem | hmem
      · cases hmem
      · obtain ⟨rfl, rfl, rfl, rfl⟩ := Elem.programme.inj hmem
        exact ⟨⟨20240101090000, by decide, rfl⟩,
          ⟨20240101235959, by decide, rfl⟩⟩)
  refine ⟨h.1 "c" "C" (by decide), ?_⟩
  rw [h.2 "c"]
  have e1 : to_int (fmt_xmltv_time 20240101090000) = 20240101090000 :=
    to_int_fmt _ (by norm_num)
  have e2 : to_int (fmt_xmltv_time 20240101235959) = 20240101235959 :=
    to_int_fmt _ (by norm_num)
  simp [progsOf, List.filterMap_cons, e1, e2]
